import Mathlib

/-!
Verification of the ingestion-worker analysis pipeline.

This file gives a shallow embedding, in Lean 4, of the parts of the
`ingestion-worker` Rust service that the checked claims concern:

* the parsed-file data model (`src/parsers/mod.rs`),
* the symbol table and dependency-graph builder (`src/graph_builder.rs`),
* the import-to-library normalization and the incremental persistence
  protocol of the batch writer (`src/neo4j_storage.rs`),
* the HTTP-endpoint extraction of the communication detector
  (`src/communication_detector.rs`),
* the git contribution summariser (`src/git_analyzer.rs`),
* the error plumbing of the pipeline orchestrator (`src/main.rs`).

Pure Rust functions are translated into Lean functions; hash maps keyed by
strings become association lists that preserve per-key insertion order;
the effectful database layer is modelled by an explicit store of nodes
(for the MERGE/SET queries) and by operation traces (for ordering facts);
fallible steps return `Except`/`Option` values.
-/

-- ===========================================================================
-- Parsed-file data model (src/parsers/mod.rs)
-- ===========================================================================

/-- `FunctionInfo` from the parser layer: a function or method summary. -/
structure FunctionInfo where
  name : String
  params : List String
  return_type : Option String
  calls : List String
  start_line : Nat
  end_line : Nat
  deriving Repr, DecidableEq

/-- `InheritanceInfo`: one recorded superclass/interface/trait of a class. -/
structure InheritanceInfo where
  name : String
  kind : String
  deriving Repr, DecidableEq

/-- `ClassInfo` from the parser layer. -/
structure ClassInfo where
  name : String
  inheritances : List InheritanceInfo
  methods : List FunctionInfo
  start_line : Nat
  end_line : Nat
  deriving Repr, DecidableEq

/-- `ServiceCall` from the parser layer (target, protocol). -/
structure ServiceCall where
  target : String
  protocol : String
  deriving Repr, DecidableEq

/-- `ParsedFile`: the per-file result of the language parsers. -/
structure ParsedFile where
  path : String
  language : String
  functions : List FunctionInfo
  classes : List ClassInfo
  imports : List String
  data_tables : List String
  service_calls : List ServiceCall
  deriving Repr, DecidableEq

-- ===========================================================================
-- Symbol table (src/graph_builder.rs, lines 95-225)
-- ===========================================================================

/-- `SymbolEntry`: a recorded declaration site. -/
structure SymbolEntry where
  file_path : String
  name : String
  start_line : Nat
  end_line : Nat
  deriving Repr, DecidableEq

/-- The Rust code uses `HashMap<String, Vec<SymbolEntry>>`; only per-key
insertion order is observable through `resolve_*`, so the map is embedded as
an association list whose per-key lists keep insertion order. -/
abbrev SymbolMap := List (String × List SymbolEntry)

/-- `map.get(name)` on the embedded symbol map. -/
def SymbolMap.getList (m : SymbolMap) (name : String) : Option (List SymbolEntry) :=
  (m.find? (fun kv => kv.1 == name)).map (fun kv => kv.2)

/-- `map.entry(name).or_default().push(e)` on the embedded symbol map. -/
def SymbolMap.push (m : SymbolMap) (name : String) (e : SymbolEntry) : SymbolMap :=
  match m with
  | [] => [(name, [e])]
  | (k, es) :: rest =>
    if k == name then (k, es ++ [e]) :: rest else (k, es) :: SymbolMap.push rest name e

/-- `FileSymbols`: names declared in a single file. -/
structure FileSymbols where
  functions : List String
  classes : List String
  imports : List String
  deriving Repr, DecidableEq

/-- `SymbolTable`: the global index built by `SymbolTable::from_parsed_files`. -/
structure SymbolTable where
  functions : SymbolMap
  classes : SymbolMap
  file_exports : List (String × List String)
  files : List (String × FileSymbols)
  deriving Repr, DecidableEq

def SymbolTable.empty : SymbolTable :=
  { functions := [], classes := [], file_exports := [], files := [] }

/-- One iteration of the method loop inside `from_parsed_files`: the method is
indexed both under `Class.method` and under its bare name (graph_builder.rs
lines 164-184). -/
def indexMethodStep (file_path class_name : String) (m : SymbolMap)
    (method : FunctionInfo) : SymbolMap :=
  let qualified_name := class_name ++ "." ++ method.name
  let method_entry : SymbolEntry :=
    { file_path := file_path, name := method.name,
      start_line := method.start_line, end_line := method.end_line }
  (m.push qualified_name method_entry).push method.name method_entry

/-- The method loop inside `from_parsed_files` (graph_builder.rs lines
164-184). -/
def indexMethods (m : SymbolMap) (file_path : String) (class_name : String)
    (methods : List FunctionInfo) : SymbolMap :=
  methods.foldl (indexMethodStep file_path class_name) m

/-- The class loop body inside `from_parsed_files` (graph_builder.rs lines
149-185): index the class entry, then its methods. The pair carries the
`functions` and `classes` maps. -/
def indexClass (maps : SymbolMap × SymbolMap) (file_path : String) (c : ClassInfo) :
    SymbolMap × SymbolMap :=
  let classes' := maps.2.push c.name
    { file_path := file_path, name := c.name,
      start_line := c.start_line, end_line := c.end_line }
  let functions' := indexMethods maps.1 file_path c.name c.methods
  (functions', classes')

/-- One iteration of the function loop inside `from_parsed_files`
(graph_builder.rs lines 134-147). -/
def indexFunctionStep (path : String) (m : SymbolMap) (func : FunctionInfo) :
    SymbolMap :=
  m.push func.name
    { file_path := path, name := func.name,
      start_line := func.start_line, end_line := func.end_line }

/-- The per-file body of `SymbolTable::from_parsed_files`. -/
def indexFile (t : SymbolTable) (file : ParsedFile) : SymbolTable :=
  let functions₁ := file.functions.foldl (indexFunctionStep file.path) t.functions
  let maps := file.classes.foldl (fun maps c => indexClass maps file.path c)
    (functions₁, t.classes)
  let file_symbols : FileSymbols :=
    { functions := file.functions.map (fun f => f.name)
      classes := file.classes.map (fun c => c.name)
      imports := file.imports }
  let exports := file_symbols.functions ++ file_symbols.classes
  { functions := maps.1
    classes := maps.2
    file_exports := t.file_exports ++ [(file.path, exports)]
    files := t.files ++ [(file.path, file_symbols)] }

/-- `SymbolTable::from_parsed_files` (graph_builder.rs lines 127-198). -/
def SymbolTable.from_parsed_files (parsed_files : List ParsedFile) : SymbolTable :=
  parsed_files.foldl indexFile SymbolTable.empty

/-- `SymbolTable::resolve_function` (graph_builder.rs lines 201-212):
prefer a definition in the same file, else the first recorded entry. -/
def SymbolTable.resolve_function (t : SymbolTable) (name : String)
    (current_file : String) : Option SymbolEntry :=
  match SymbolMap.getList t.functions name with
  | some entries =>
    match entries.find? (fun e => e.file_path == current_file) with
    | some same_file => some same_file
    | none => entries.head?
  | none => none

/-- `SymbolTable::resolve_class` (graph_builder.rs lines 215-224). -/
def SymbolTable.resolve_class (t : SymbolTable) (name : String)
    (current_file : String) : Option SymbolEntry :=
  match SymbolMap.getList t.classes name with
  | some entries =>
    match entries.find? (fun e => e.file_path == current_file) with
    | some same_file => some same_file
    | none => entries.head?
  | none => none

/-- All entries recorded for `name` (the empty list when the key is absent). -/
def SymbolMap.entriesFor (m : SymbolMap) (name : String) : List SymbolEntry :=
  (SymbolMap.getList m name).getD []

-- ===========================================================================
-- Dependency graph builder (src/graph_builder.rs, lines 13-363)
-- ===========================================================================

/-- `NodeId`: tagged identity of an in-memory graph node. -/
inductive NodeId where
  | File (path : String)
  | Class (file_path : String) (name : String)
  | Function (file_path : String) (name : String)
  | Module (name : String)
  deriving Repr, DecidableEq

/-- `EdgeType`: the five relationship kinds of the in-memory graph. -/
inductive EdgeType where
  | Defines
  | Calls
  | Imports
  | Inherits
  | Contains
  deriving Repr, DecidableEq

/-- `Edge`: a typed edge with optional string properties. -/
structure Edge where
  from_ : NodeId
  to_ : NodeId
  edge_type : EdgeType
  properties : List (String × String)
  deriving Repr, DecidableEq

/-- `DependencyGraph`: a set of nodes (`HashSet` in Rust, embedded as a
duplicate-free insertion list) plus a list of edges. -/
structure DependencyGraph where
  nodes : List NodeId
  edges : List Edge
  deriving Repr, DecidableEq

def DependencyGraph.empty : DependencyGraph := { nodes := [], edges := [] }

/-- `HashSet::insert` on the embedded node set. -/
def insertNode (ns : List NodeId) (n : NodeId) : List NodeId :=
  if n ∈ ns then ns else n :: ns

/-- One iteration of the call loop of `add_call_edges` (graph_builder.rs
lines 349-362): if the symbol table resolves the call name, insert the callee
node and push a `Calls` edge; an unresolved name is skipped. -/
def addCallStep (symbol_table : SymbolTable) (caller_node : NodeId)
    (current_file : String) (g : DependencyGraph) (call : String) : DependencyGraph :=
  match symbol_table.resolve_function call current_file with
  | some callee_entry =>
    let callee_node := NodeId.Function callee_entry.file_path callee_entry.name
    { nodes := insertNode g.nodes callee_node
      edges := g.edges ++ [{ from_ := caller_node, to_ := callee_node,
                             edge_type := EdgeType.Calls, properties := [] }] }
  | none => g

/-- `DependencyGraph::add_call_edges` (graph_builder.rs lines 342-363). -/
def add_call_edges (g : DependencyGraph) (caller_node : NodeId) (func : FunctionInfo)
    (current_file : String) (symbol_table : SymbolTable) : DependencyGraph :=
  func.calls.foldl (addCallStep symbol_table caller_node current_file) g

/-- The top-level-function loop body of `from_parsed_files` (graph_builder.rs
lines 248-262): function node, `Defines` edge, then call edges. -/
def processFunction (t : SymbolTable) (file_node : NodeId) (path : String)
    (g : DependencyGraph) (func : FunctionInfo) : DependencyGraph :=
  let func_node := NodeId.Function path func.name
  let g := { nodes := insertNode g.nodes func_node
             edges := g.edges ++ [{ from_ := file_node, to_ := func_node,
                                    edge_type := EdgeType.Defines, properties := [] }] }
  add_call_edges g func_node func path t

/-- The inheritance loop body of `from_parsed_files` (graph_builder.rs lines
278-304): resolved parents become `Class` targets, unresolved parents become
`Module` targets; either way the `kind` property is carried. -/
def processInheritance (t : SymbolTable) (class_node : NodeId) (path : String)
    (g : DependencyGraph) (inheritance : InheritanceInfo) : DependencyGraph :=
  match t.resolve_class inheritance.name path with
  | some parent_entry =>
    let parent_node := NodeId.Class parent_entry.file_path inheritance.name
    { nodes := insertNode g.nodes parent_node
      edges := g.edges ++ [{ from_ := class_node, to_ := parent_node,
                             edge_type := EdgeType.Inherits,
                             properties := [("kind", inheritance.kind)] }] }
  | none =>
    let parent_node := NodeId.Module inheritance.name
    { nodes := insertNode g.nodes parent_node
      edges := g.edges ++ [{ from_ := class_node, to_ := parent_node,
                             edge_type := EdgeType.Inherits,
                             properties := [("kind", inheritance.kind)] }] }

/-- The method loop body of `from_parsed_files` (graph_builder.rs lines
307-321): method node, `Contains` edge, then call edges. -/
def processMethod (t : SymbolTable) (class_node : NodeId) (path : String)
    (g : DependencyGraph) (method : FunctionInfo) : DependencyGraph :=
  let method_node := NodeId.Function path method.name
  let g := { nodes := insertNode g.nodes method_node
             edges := g.edges ++ [{ from_ := class_node, to_ := method_node,
                                    edge_type := EdgeType.Contains, properties := [] }] }
  add_call_edges g method_node method path t

/-- The class loop body of `from_parsed_files` (graph_builder.rs lines
265-322): class node, `Defines` edge, inheritances, then methods. -/
def processClass (t : SymbolTable) (file_node : NodeId) (path : String)
    (g : DependencyGraph) (c : ClassInfo) : DependencyGraph :=
  let class_node := NodeId.Class path c.name
  let g := { nodes := insertNode g.nodes class_node
             edges := g.edges ++ [{ from_ := file_node, to_ := class_node,
                                    edge_type := EdgeType.Defines, properties := [] }] }
  let g := c.inheritances.foldl (processInheritance t class_node path) g
  c.methods.foldl (processMethod t class_node path) g

/-- The import loop body of `from_parsed_files` (graph_builder.rs lines
325-335). -/
def processImport (file_node : NodeId) (g : DependencyGraph) (import_ : String) :
    DependencyGraph :=
  let module_node := NodeId.Module import_
  { nodes := insertNode g.nodes module_node
    edges := g.edges ++ [{ from_ := file_node, to_ := module_node,
                           edge_type := EdgeType.Imports, properties := [] }] }

/-- The per-file body of `DependencyGraph::from_parsed_files` (graph_builder.rs
lines 243-336). -/
def processFile (t : SymbolTable) (g : DependencyGraph) (file : ParsedFile) :
    DependencyGraph :=
  let file_node := NodeId.File file.path
  let g := { g with nodes := insertNode g.nodes file_node }
  let g := file.functions.foldl (processFunction t file_node file.path) g
  let g := file.classes.foldl (processClass t file_node file.path) g
  file.imports.foldl (processImport file_node) g

/-- `DependencyGraph::from_parsed_files` (graph_builder.rs lines 240-339). -/
def DependencyGraph.from_parsed_files (parsed_files : List ParsedFile)
    (symbol_table : SymbolTable) : DependencyGraph :=
  parsed_files.foldl (processFile symbol_table) DependencyGraph.empty

-- ===========================================================================
-- Import-to-library normalization (src/neo4j_storage.rs, lines 543-559)
-- ===========================================================================

/-- Rust `str::trim` (whitespace stripped from both ends), on the character
list so that it reduces definitionally. -/
def rustTrim (s : String) : String :=
  String.mk (((s.toList.dropWhile Char.isWhitespace).reverse.dropWhile
    Char.isWhitespace).reverse)

/-- Rust `str::trim_matches(c)`: strip every leading and trailing `c`. -/
def trimMatches (c : Char) (s : String) : String :=
  String.mk (((s.toList.dropWhile (fun ch => ch == c)).reverse.dropWhile
    (fun ch => ch == c)).reverse)

/-- Rust `str::starts_with(c)` for a single character. -/
def startsWithChar (s : String) (c : Char) : Bool :=
  match s.toList with
  | [] => false
  | c0 :: _ => c0 == c

/-- Rust `str::split(c)`: split at every occurrence of the character (an
empty string yields one empty segment, like the Rust iterator). -/
def splitChar (sep : Char) : List Char → List (List Char)
  | [] => [[]]
  | c :: rest =>
    if c == sep then [] :: splitChar sep rest
    else
      match splitChar sep rest with
      | [] => [[c]]
      | seg :: segs => (c :: seg) :: segs

/-- `s.split(sep).collect::<Vec<_>>()` as strings. -/
def splitCharS (sep : Char) (s : String) : List String :=
  (splitChar sep s.toList).map String.mk

/-- The trimming prelude of `normalize_import_to_library`:
`import_path.trim().trim_matches('"').trim_matches('`' )`. -/
def trimImport (import_path : String) : String :=
  trimMatches '\x60' (trimMatches '"' (rustTrim import_path))

/-- `normalize_import_to_library` (neo4j_storage.rs lines 543-559). -/
def normalize_import_to_library (import_path : String) : Option String :=
  let trimmed := trimImport import_path
  if startsWithChar trimmed '.' || startsWithChar trimmed '/' then none
  else
    match splitCharS '/' trimmed with
    | [] => none
    | p0 :: rest =>
      if startsWithChar trimmed '@' then
        match rest with
        | p1 :: _ => some (p0 ++ "/" ++ p1)
        | [] => some p0
      else some p0

/-- The import-to-library rule exactly as the claim words it, applied to the
raw import string with no trimming: leading `.` or `/` means not a library;
a leading `@` with a `/` keeps the first two segments; otherwise the first
segment. -/
def importRuleRaw (s : String) : Option String :=
  if startsWithChar s '.' || startsWithChar s '/' then none
  else if startsWithChar s '@' && (splitCharS '/' s).length ≥ 2 then
    match splitCharS '/' s with
    | p0 :: p1 :: _ => some (p0 ++ "/" ++ p1)
    | _ => none
  else (splitCharS '/' s).head?

-- ===========================================================================
-- Incremental persistence protocol (src/neo4j_storage.rs, lines 92-305)
-- ===========================================================================

/-- Rust `Vec::dedup`: drop consecutive duplicates (keeping the first of
each run). -/
def rustDedup : List String → List String
  | [] => []
  | a :: rest =>
    match rest with
    | [] => [a]
    | b :: _ => if a = b then rustDedup rest else a :: rustDedup rest

/-- Lexicographic comparison of character lists by code point (UTF-8 byte
order on strings coincides with code-point order). -/
def strLeAux : List Char → List Char → Bool
  | [], _ => true
  | _ :: _, [] => false
  | a :: as, b :: bs =>
    if a = b then strLeAux as bs
    else decide (a.toNat < b.toNat)

/-- Rust `String` ordering (`Ord`): lexicographic byte order. -/
def strLe (a b : String) : Bool :=
  strLeAux a.toList b.toList

/-- Rust `Vec::sort` on strings (a stable comparison sort; extensionally the
result is the unique sorted stable permutation, which insertion sort also
computes). -/
def rustSort (l : List String) : List String :=
  l.insertionSort (fun a b => strLe a b = true)

/-- The deduplicated union computed by `store_graph_incremental`
(neo4j_storage.rs lines 271-275): concatenate, sort, dedup. -/
def files_to_remove (changed_files removed_files : List String) : List String :=
  rustDedup (rustSort (changed_files ++ removed_files))

/-- One transaction operation of the batch writer, for ordering facts:
either one of the three detach-delete queries of `delete_file_nodes`, or one
of the upsert batches of `execute_batch_operations`. -/
inductive StoreOp where
  | deleteFileNodes (paths : List String)
  | deleteClassNodes (paths : List String)
  | deleteFunctionNodes (paths : List String)
  | upsertBatch (step : String)
  deriving Repr, DecidableEq

def StoreOp.isDelete : StoreOp → Bool
  | .deleteFileNodes _ => true
  | .deleteClassNodes _ => true
  | .deleteFunctionNodes _ => true
  | .upsertBatch _ => false

/-- `delete_file_nodes` (neo4j_storage.rs lines 92-134): an early return on an
empty path list, otherwise the File, Class-by-file and Function-by-file
detach-deletes in that order. -/
def delete_file_nodes_ops (files : List String) : List StoreOp :=
  if files = [] then []
  else [StoreOp.deleteFileNodes files, StoreOp.deleteClassNodes files,
        StoreOp.deleteFunctionNodes files]

/-- The upsert sequence of `execute_batch_operations` (neo4j_storage.rs lines
189-249), in program order. -/
def execute_batch_operations_ops : List StoreOp :=
  [StoreOp.upsertBatch "job_node",
   StoreOp.upsertBatch "file_nodes",
   StoreOp.upsertBatch "class_nodes",
   StoreOp.upsertBatch "function_nodes",
   StoreOp.upsertBatch "module_nodes",
   StoreOp.upsertBatch "boundary_nodes",
   StoreOp.upsertBatch "library_nodes",
   StoreOp.upsertBatch "defines_edges",
   StoreOp.upsertBatch "contains_edges",
   StoreOp.upsertBatch "calls_edges",
   StoreOp.upsertBatch "imports_edges",
   StoreOp.upsertBatch "inherits_edges",
   StoreOp.upsertBatch "belongs_to_edges",
   StoreOp.upsertBatch "library_edges",
   StoreOp.upsertBatch "table_nodes",
   StoreOp.upsertBatch "table_edges",
   StoreOp.upsertBatch "service_nodes",
   StoreOp.upsertBatch "service_edges",
   StoreOp.upsertBatch "endpoint_nodes",
   StoreOp.upsertBatch "endpoint_edges",
   StoreOp.upsertBatch "rpc_nodes",
   StoreOp.upsertBatch "rpc_edges",
   StoreOp.upsertBatch "queue_nodes",
   StoreOp.upsertBatch "queue_edges",
   StoreOp.upsertBatch "compose_service_nodes",
   StoreOp.upsertBatch "endpoint_service_edges",
   StoreOp.upsertBatch "file_dependencies"]

/-- The single-transaction operation trace of `store_graph_incremental`
(neo4j_storage.rs lines 252-305): deletes of the changed/removed union, then
the standard upsert pipeline. -/
def store_graph_incremental_ops (changed_files removed_files : List String) :
    List StoreOp :=
  delete_file_nodes_ops (files_to_remove changed_files removed_files)
    ++ execute_batch_operations_ops

-- ===========================================================================
-- Git contribution summary (src/git_analyzer.rs, lines 270-366)
-- ===========================================================================

/-- `ContributorStats`: the per-author accumulator inside `FileStats`. -/
structure ContributorStats where
  name : String
  email : String
  commit_count : Nat
  lines_added : Nat
  lines_deleted : Nat
  deriving Repr, DecidableEq

/-- `ContributorInfo`: one contributor in the produced `FileContribution`. -/
structure ContributorInfo where
  email : String
  name : String
  commit_count : Nat
  lines_added : Nat
  lines_deleted : Nat
  deriving Repr, DecidableEq

/-- `FileStats`: the internal per-file tracker. Its contributor map is a
`HashMap<String, ContributorStats>` keyed by email; it is embedded as an
association list (the map's iteration order is arbitrary in Rust, and no
checked claim depends on it). Timestamps are embedded as epoch seconds. -/
structure FileStats where
  commit_count : Nat
  last_modified : Nat
  contributors : List (String × ContributorStats)
  deriving Repr, DecidableEq

/-- `FileContribution`: the per-file metrics handed to the persistor. -/
structure FileContribution where
  file_path : String
  commit_count : Nat
  last_modified : Nat
  primary_author : String
  contributors : List ContributorInfo
  lines_added_total : Nat
  lines_deleted_total : Nat
  lines_changed_total : Nat
  deriving Repr, DecidableEq

/-- `FileStats::to_contribution` (git_analyzer.rs lines 332-365): collect the
contributor map, sort by commit count descending (Rust `sort_by` is a stable
sort, mirrored by a stable insertion sort on the strict comparison), pick the
primary author, and total the line counts over the sorted contributors. -/
def FileStats.to_contribution (s : FileStats) (path : String) : FileContribution :=
  let contributors : List ContributorInfo := s.contributors.map
    (fun kv =>
      { email := kv.1, name := kv.2.name, commit_count := kv.2.commit_count,
        lines_added := kv.2.lines_added, lines_deleted := kv.2.lines_deleted })
  let contributors :=
    contributors.insertionSort (fun a b => b.commit_count < a.commit_count)
  let primary_author := (contributors.head?.map (fun c => c.email)).getD "unknown"
  let lines_added_total := (contributors.map (fun c => c.lines_added)).sum
  let lines_deleted_total := (contributors.map (fun c => c.lines_deleted)).sum
  let lines_changed_total := lines_added_total + lines_deleted_total
  { file_path := path
    commit_count := s.commit_count
    last_modified := s.last_modified
    primary_author := primary_author
    contributors := contributors
    lines_added_total := lines_added_total
    lines_deleted_total := lines_deleted_total
    lines_changed_total := lines_changed_total }

/-- `RepoContributions` (file map plus totals; the bounded commit-record
buffer is not needed by any checked claim). -/
structure RepoContributions where
  files : List (String × FileContribution)
  total_commits : Nat
  total_contributors : Nat
  deriving Repr, DecidableEq

/-- `contributions.files.get(&path)` on the embedded file map. -/
def RepoContributions.getFile (c : RepoContributions) (path : String) :
    Option FileContribution :=
  (c.files.find? (fun kv => kv.1 == path)).map (fun kv => kv.2)

-- ===========================================================================
-- Persisted node store: Cypher MERGE/SET semantics
-- (src/neo4j_storage.rs, lines 328-505)
-- ===========================================================================

/-- A property value of a persisted node. -/
inductive PropVal where
  | str (s : String)
  | num (n : Nat)
  | strList (l : List String)
  deriving Repr, DecidableEq

abbrev Props := List (String × PropVal)

def Props.getVal (ps : Props) (k : String) : Option PropVal :=
  (ps.find? (fun kv => kv.1 == k)).map (fun kv => kv.2)

def Props.setVal (ps : Props) (k : String) (v : PropVal) : Props :=
  if (ps.find? (fun kv => kv.1 == k)).isSome then
    ps.map (fun kv => if kv.1 == k then (kv.1, v) else kv)
  else ps ++ [(k, v)]

def Props.setAll (ps updates : Props) : Props :=
  updates.foldl (fun ps kv => Props.setVal ps kv.1 kv.2) ps

/-- A persisted graph node: a label plus properties. -/
structure GraphNode where
  label : String
  props : Props
  deriving Repr, DecidableEq

abbrev GraphStore := List GraphNode

def GraphNode.matchesKey (n : GraphNode) (label : String) (key : Props) : Bool :=
  n.label == label && key.all (fun kv => n.props.getVal kv.1 == some kv.2)

/-- Cypher `MERGE (n:Label {key…}) SET n.p = v, …`: when some node carries the
label and all key properties, apply the SET clause to every such node;
otherwise create a node from the key properties and apply the SET clause. -/
def mergeSet (store : GraphStore) (label : String) (key sets : Props) : GraphStore :=
  if store.any (fun n => n.matchesKey label key) then
    store.map (fun n =>
      if n.matchesKey label key then { n with props := n.props.setAll sets } else n)
  else store ++ [{ label := label, props := key.setAll sets }]

/-- `get_qualified_id` (neo4j_storage.rs lines 42-44). -/
def get_qualified_id (file_path name : String) : String :=
  file_path ++ "::" ++ name

/-- The SET clause of the File upsert (neo4j_storage.rs lines 336-381),
including the `COALESCE` defaults used when the git analyzer produced no
entry for the file. -/
def fileSetProps (f : ParsedFile) (job_id repo_id : String)
    (git : Option RepoContributions) : Props :=
  [("path", PropVal.str f.path), ("language", PropVal.str f.language),
   ("job_id", PropVal.str job_id), ("repo_id", PropVal.str repo_id)]
  ++ match git.bind (fun g => g.getFile f.path) with
     | some fc =>
       [("commit_count", PropVal.num fc.commit_count),
        ("last_commit_date", PropVal.num fc.last_modified),
        ("primary_author", PropVal.str fc.primary_author),
        ("lines_changed_total", PropVal.num fc.lines_changed_total),
        ("contributors", PropVal.strList (fc.contributors.map (fun c => c.email)))]
     | none =>
       [("commit_count", PropVal.num 0),
        ("last_commit_date", PropVal.num 0),
        ("primary_author", PropVal.str ""),
        ("lines_changed_total", PropVal.num 0),
        ("contributors", PropVal.strList [])]

/-- `batch_insert_file_nodes` (neo4j_storage.rs lines 328-390):
`MERGE (f:File {id: node.id}) SET …` — the merge key is the path alone. -/
def batch_insert_file_nodes (store : GraphStore) (job_id repo_id : String)
    (parsed_files : List ParsedFile) (git : Option RepoContributions) : GraphStore :=
  parsed_files.foldl
    (fun st f => mergeSet st "File" [("id", PropVal.str f.path)]
      (fileSetProps f job_id repo_id git))
    store

/-- `batch_insert_class_nodes` (neo4j_storage.rs lines 392-425):
`MERGE (c:Class {id: node.id}) SET …` with `id = file::name`. -/
def batch_insert_class_nodes (store : GraphStore) (job_id repo_id : String)
    (parsed_files : List ParsedFile) : GraphStore :=
  parsed_files.foldl
    (fun st f => f.classes.foldl
      (fun st c => mergeSet st "Class"
        [("id", PropVal.str (get_qualified_id f.path c.name))]
        [("name", PropVal.str c.name), ("file", PropVal.str f.path),
         ("start_line", PropVal.num c.start_line),
         ("end_line", PropVal.num c.end_line),
         ("job_id", PropVal.str job_id), ("repo_id", PropVal.str repo_id)])
      st)
    store

/-- The SET clause of the Function upsert (neo4j_storage.rs lines 69-82). -/
def functionSetProps (func : FunctionInfo) (file job_id repo_id : String) : Props :=
  [("name", PropVal.str func.name), ("file", PropVal.str file),
   ("start_line", PropVal.num func.start_line),
   ("end_line", PropVal.num func.end_line),
   ("params", PropVal.strList func.params),
   ("return_type", PropVal.str (func.return_type.getD "")),
   ("job_id", PropVal.str job_id), ("repo_id", PropVal.str repo_id)]

/-- `batch_insert_function_nodes` (neo4j_storage.rs lines 427-470): top-level
functions then class methods, each `MERGE (fn:Function {id: node.id}) SET …`
with `id = file::name`. -/
def batch_insert_function_nodes (store : GraphStore) (job_id repo_id : String)
    (parsed_files : List ParsedFile) : GraphStore :=
  parsed_files.foldl
    (fun st f =>
      let st := f.functions.foldl
        (fun st func => mergeSet st "Function"
          [("id", PropVal.str (get_qualified_id f.path func.name))]
          (functionSetProps func f.path job_id repo_id))
        st
      f.classes.foldl
        (fun st c => c.methods.foldl
          (fun st m => mergeSet st "Function"
            [("id", PropVal.str (get_qualified_id f.path m.name))]
            (functionSetProps m f.path job_id repo_id))
          st)
        st)
    store

/-- `batch_insert_module_nodes` (neo4j_storage.rs lines 472-505):
`MERGE (m:Module {name: node.name}) SET …` over the Module nodes of the
in-memory graph. -/
def batch_insert_module_nodes (store : GraphStore) (job_id repo_id : String)
    (dep_graph : DependencyGraph) : GraphStore :=
  (dep_graph.nodes.filterMap
    (fun n => match n with
      | NodeId.Module name => some name
      | _ => none)).foldl
    (fun st name => mergeSet st "Module" [("name", PropVal.str name)]
      [("job_id", PropVal.str job_id), ("repo_id", PropVal.str repo_id)])
    store

/-- The node-upsert portion of `execute_batch_operations` for the four core
kinds (neo4j_storage.rs lines 204-208), in program order. -/
def insert_core_nodes (store : GraphStore) (job_id repo_id : String)
    (parsed_files : List ParsedFile) (dep_graph : DependencyGraph)
    (git : Option RepoContributions) : GraphStore :=
  batch_insert_module_nodes
    (batch_insert_function_nodes
      (batch_insert_class_nodes
        (batch_insert_file_nodes store job_id repo_id parsed_files git)
        job_id repo_id parsed_files)
      job_id repo_id parsed_files)
    job_id repo_id dep_graph

-- ===========================================================================
-- HTTP endpoint extraction (src/communication_detector.rs, lines 88-146, 321-332)
-- ===========================================================================

/-- `EndpointCall` from the communication detector. -/
structure EndpointCall where
  file_path : String
  url : String
  method : String
  host : Option String
  deriving Repr, DecidableEq

/-- Rust `str::split("//")`: split at every leftmost non-overlapping
occurrence of the two-character separator. -/
def splitDslash : List Char → List (List Char)
  | [] => [[]]
  | '/' :: '/' :: rest => [] :: splitDslash rest
  | c :: rest =>
    match splitDslash rest with
    | [] => [[c]]
    | seg :: segs => (c :: seg) :: segs

/-- `extract_host` (communication_detector.rs lines 321-332). Each
`.split(c).next().unwrap_or("")` keeps the prefix before the first
separator, which is a `takeWhile`. -/
def extract_host (url : String) : Option String :=
  let parts := (splitDslash url.toList).map String.mk
  let host_part := (parts.get? 1).getD ""
  let host := host_part.toList.takeWhile (fun c => c != '/')
  let host := host.takeWhile (fun c => c != '?')
  let host := host.takeWhile (fun c => c != '#')
  if host.isEmpty then none else some (String.mk host)

/-- `make_endpoint_call` (communication_detector.rs lines 138-146). -/
def make_endpoint_call (file_path url method : String) : EndpointCall :=
  { file_path := file_path, url := url, method := method, host := extract_host url }

/-- The `\s` class of the regex patterns, on the ASCII range the inputs use. -/
def regexWs (c : Char) : Bool :=
  c == ' ' || c == '\t' || c == '\n' || c == '\r' || c == '\x0b' || c == '\x0c'

/-- The `['"]` class. -/
def quoteChar (c : Char) : Bool := c == '\'' || c == '"'

/-- The `[^'"\s]` class of the fetch/axios/requests URL capture. -/
def urlChar (c : Char) : Bool := !(quoteChar c || regexWs c)

/-- The `[^"\s]` class of the `http.Get` URL capture (single quotes allowed). -/
def urlCharDq (c : Char) : Bool := !(c == '"' || regexWs c)

/-- A matcher consumes a prefix of the character list and returns the matched
span together with the rest. -/
abbrev Matcher := List Char → Option (List Char × List Char)

/-- Case-insensitive literal (the patterns all carry the `(?i)` flag). -/
def matchLitCIAux : List Char → List Char → Option (List Char)
  | [], cs => some cs
  | _ :: _, [] => none
  | p :: ps, c :: cs => if c.toLower == p.toLower then matchLitCIAux ps cs else none

def mLitCI (lit : String) : Matcher := fun cs =>
  (matchLitCIAux lit.toList cs).map (fun rest => (cs.take lit.toList.length, rest))

def mChar (p : Char → Bool) : Matcher := fun cs =>
  match cs with
  | c :: rest => if p c then some ([c], rest) else none
  | [] => none

/-- Greedy `X*` over a character class (no backtracking is needed: every
continuation below starts with a character outside the class). -/
def mStar (p : Char → Bool) : Matcher := fun cs =>
  let matched := cs.takeWhile p
  some (matched, cs.drop matched.length)

/-- Greedy `X+` over a character class. -/
def mPlus (p : Char → Bool) : Matcher := fun cs =>
  let matched := cs.takeWhile p
  if matched.isEmpty then none else some (matched, cs.drop matched.length)

def mSeq (a b : Matcher) : Matcher := fun cs =>
  match a cs with
  | some (s1, r1) =>
    match b r1 with
    | some (s2, r2) => some (s1 ++ s2, r2)
    | none => none
  | none => none

/-- The optional `s` of `https?`: the following literal is `://`, which can
never match at an `s`, so consuming the `s` when present loses no match. -/
def mOptS : Matcher := fun cs =>
  match cs with
  | c :: rest => if c.toLower == 's' then some ([c], rest) else some ([], cs)
  | [] => some ([], cs)

/-- The URL capture `(https?://[^'"\s]+)`. -/
def mUrl : Matcher :=
  mSeq (mSeq (mLitCI "http") mOptS) (mSeq (mLitCI "://") (mPlus urlChar))

/-- The URL capture `(https?://[^"\s]+)` of the `http.Get` pattern. -/
def mUrlDq : Matcher :=
  mSeq (mSeq (mLitCI "http") mOptS) (mSeq (mLitCI "://") (mPlus urlCharDq))

/-- `fetch\(\s*['"](https?://[^'"\s]+)['"]` anchored at the list head,
returning the URL capture and the rest after the closing quote. -/
def matchFetchBareAt (cs : List Char) : Option (String × List Char) := do
  let (_, cs) ← mLitCI "fetch(" cs
  let (_, cs) ← mStar regexWs cs
  let (_, cs) ← mChar quoteChar cs
  let (url, cs) ← mUrl cs
  let (_, cs) ← mChar quoteChar cs
  pure (String.mk url, cs)

/-- `method\s*:\s*['"]([A-Z]+)['"]` anchored at the list head ( `[A-Z]` under
`(?i)` matches letters of either case), returning the method capture. -/
def matchMethodKeyAt (cs : List Char) : Option (String × List Char) := do
  let (_, cs) ← mLitCI "method" cs
  let (_, cs) ← mStar regexWs cs
  let (_, cs) ← mLitCI ":" cs
  let (_, cs) ← mStar regexWs cs
  let (_, cs) ← mChar quoteChar cs
  let (meth, cs) ← mPlus Char.isAlpha cs
  let (_, cs) ← mChar quoteChar cs
  pure (String.mk meth, cs)

/-- The greedy backtracking of `[^}]*method…`: try the method key after `k`
leading non-`}` characters, longest run first. -/
def tryMethodFrom : Nat → List Char → Option (String × List Char)
  | 0, cs => matchMethodKeyAt cs
  | k + 1, cs =>
    match matchMethodKeyAt (cs.drop (k + 1)) with
    | some r => some r
    | none => tryMethodFrom k cs

/-- The full `fetch_method_re` pattern
`fetch\(\s*['"](https?://[^'"\s]+)['"]\s*,\s*\{\{[^}]*method\s*:\s*['"]([A-Z]+)['"]`
anchored at the list head. The doubled brace of the source pattern (`\{{` with
class `[^}}]`) is kept verbatim: the pattern demands two literal `{`
characters after the comma. -/
def matchFetchMethodAt (cs : List Char) : Option ((String × String) × List Char) := do
  let (url, cs) ← matchFetchBareAt cs
  let (_, cs) ← mStar regexWs cs
  let (_, cs) ← mLitCI "," cs
  let (_, cs) ← mStar regexWs cs
  let (_, cs) ← mLitCI "\x7b\x7b" cs
  let runLen := (cs.takeWhile (fun c => c != '\x7d')).length
  let (meth, rest) ← tryMethodFrom runLen cs
  pure ((url, meth), rest)

/-- `axios\.(get|post|put|delete|patch)\(` / `requests\.(…)\(` verb capture. -/
def mVerb (cs : List Char) : Option (List Char × List Char) :=
  match mLitCI "get" cs with
  | some r => some r
  | none =>
    match mLitCI "post" cs with
    | some r => some r
    | none =>
      match mLitCI "put" cs with
      | some r => some r
      | none =>
        match mLitCI "delete" cs with
        | some r => some r
        | none => mLitCI "patch" cs

/-- `axios\.(verb)\(\s*['"](URL)['"]` or `requests\.(verb)\(\s*['"](URL)['"]`
anchored at the list head, returning (verb, url). -/
def matchVerbCallAt (callee : String) (cs : List Char) :
    Option ((String × String) × List Char) := do
  let (_, cs) ← mLitCI (callee ++ ".") cs
  let (verb, cs) ← mVerb cs
  let (_, cs) ← mLitCI "(" cs
  let (_, cs) ← mStar regexWs cs
  let (_, cs) ← mChar quoteChar cs
  let (url, cs) ← mUrl cs
  let (_, cs) ← mChar quoteChar cs
  pure ((String.mk verb, String.mk url), cs)

/-- `http\.Get\(\s*"(https?://[^"\s]+)"` anchored at the list head. -/
def matchHttpGetAt (cs : List Char) : Option (String × List Char) := do
  let (_, cs) ← mLitCI "http.Get(" cs
  let (_, cs) ← mStar regexWs cs
  let (_, cs) ← mChar (fun c => c == '"') cs
  let (url, cs) ← mUrlDq cs
  let (_, cs) ← mChar (fun c => c == '"') cs
  pure (String.mk url, cs)

/-- `captures_iter` driver: scan left to right, at each position try the
anchored matcher; on a match record the captures and resume after the match,
otherwise advance one character. The fuel is the list length (every step
consumes at least one character). -/
def scanWith (m : List Char → Option (α × List Char)) :
    Nat → List Char → List α
  | 0, _ => []
  | _ + 1, [] => []
  | fuel + 1, c :: tail =>
    match m (c :: tail) with
    | some (a, rest) => a :: scanWith m fuel rest
    | none => scanWith m fuel tail

/-- `extract_http_calls` (communication_detector.rs lines 88-136): the match
lists of the five patterns, pushed in program order. -/
def extract_http_calls (file_path content : String) : List EndpointCall :=
  let cs := content.toList
  let fuel := cs.length
  (scanWith matchFetchMethodAt fuel cs).map
    (fun r => make_endpoint_call file_path r.1 r.2)
  ++ (scanWith matchFetchBareAt fuel cs).map
    (fun url => make_endpoint_call file_path url "GET")
  ++ (scanWith (matchVerbCallAt "axios") fuel cs).map
    (fun r => make_endpoint_call file_path r.2 r.1.toUpper)
  ++ (scanWith (matchVerbCallAt "requests") fuel cs).map
    (fun r => make_endpoint_call file_path r.2 r.1.toUpper)
  ++ (scanWith matchHttpGetAt fuel cs).map
    (fun url => make_endpoint_call file_path url "GET")

-- ===========================================================================
-- Orchestrator error plumbing (src/main.rs, lines 431-763, 1118-1215)
-- ===========================================================================

/-- The outcomes of the fallible steps of `analyze_repository` (main.rs lines
431-617), abstracting the I/O each step performs: every field holds the
result the corresponding call would return. -/
structure PipelineOutcomes (Γ B L C : Type) where
  git_open : Except String Unit
  git_analyze : Except String Γ
  boundaries : Except String B
  libraries : Except String L
  communication : Except String C
  persist : Except String Unit

/-- The git enrichment computed at main.rs lines 486-505: failures of
`GitAnalyzer::new` or `analyze_contributions` are swallowed into `None`. -/
def gitEnrichment (o : PipelineOutcomes Γ B L C) : Option Γ :=
  match o.git_open with
  | Except.error _ => none
  | Except.ok _ =>
    match o.git_analyze with
    | Except.error _ => none
    | Except.ok c => some c

/-- The error plumbing of `analyze_repository` from step 4 on (main.rs lines
486-617): the git analyzer is the only step whose failure is caught; the
boundary detector, the manifest scan, the communication detector and the
persistence call are all followed by `?`. On success the job summary carries
the (possibly absent) git enrichment and the other analyzer payloads. -/
def analyze_repository_flow (o : PipelineOutcomes Γ B L C) :
    Except String (Option Γ × B × L × C) :=
  let git_contributions := gitEnrichment o
  match o.boundaries with
  | Except.error e => Except.error e
  | Except.ok b =>
    match o.libraries with
    | Except.error e => Except.error e
    | Except.ok l =>
      match o.communication with
      | Except.error e => Except.error e
      | Except.ok c =>
        match o.persist with
        | Except.error e => Except.error e
        | Except.ok _ => Except.ok (git_contributions, b, l, c)

/-- The fate of one source file during parsing, abstracting the filesystem
and tree-sitter: skipped (no parser for the extension, or, in incremental
mode, a path that is not a file), parsed, or failed with a parse error. -/
inductive FileParseOutcome where
  | skipped
  | parsed (pf : ParsedFile)
  | failed (e : String)
  deriving Repr, DecidableEq

/-- The full-ingest walk `walk_directory` (main.rs lines 1118-1215): each
parse result is `.ok()`-ed, so a failed file contributes nothing and the
walk continues over the remaining files. -/
def walk_directory_results (entries : List FileParseOutcome) : List ParsedFile :=
  entries.foldl
    (fun acc entry =>
      match entry with
      | FileParseOutcome.parsed pf => acc ++ [pf]
      | _ => acc)
    []

/-- The incremental parse loop `parse_repository_subset` (main.rs lines
726-763): missing files are skipped, but a parse failure is propagated with
`?`, aborting the loop. -/
def parse_repository_subset_results :
    List FileParseOutcome → Except String (List ParsedFile)
  | [] => Except.ok []
  | FileParseOutcome.skipped :: rest => parse_repository_subset_results rest
  | FileParseOutcome.parsed pf :: rest =>
    match parse_repository_subset_results rest with
    | Except.ok pfs => Except.ok (pf :: pfs)
    | Except.error e => Except.error e
  | FileParseOutcome.failed e :: _ => Except.error e

-- ===========================================================================
-- Derived predicates and concrete probe data
-- ===========================================================================

/-- The shared body of `resolve_function` and `resolve_class`, as a function
of the underlying map (both methods literally perform this computation on
their respective map). -/
def resolveEntries (m : SymbolMap) (name current_file : String) : Option SymbolEntry :=
  match SymbolMap.getList m name with
  | some entries =>
    match entries.find? (fun e => e.file_path == current_file) with
    | some same_file => some same_file
    | none => entries.head?
  | none => none

/-- Both endpoints of every edge are members of the node set. -/
def EdgesOk (g : DependencyGraph) : Prop :=
  ∀ e ∈ g.edges, e.from_ ∈ g.nodes ∧ e.to_ ∈ g.nodes

/-- The entry occurs in some per-name list of the map. -/
def EntryInMap (m : SymbolMap) (se : SymbolEntry) : Prop :=
  ∃ kv ∈ m, se ∈ kv.2

/-- Every entry stored in the map is also reachable under its own `name`
key: a structural invariant of built symbol tables (functions are indexed
under their name, methods under both their bare and qualified names). -/
def NameKeyed (m : SymbolMap) : Prop :=
  ∀ se, EntryInMap m se → SymbolMap.entriesFor m se.name ≠ []

/-- Probe repository: `caller.rs` defining `main` which calls `helper`,
`callee.rs` defining `helper` (the cross-file scenario of the repository's
own unit tests). -/
def probeMain : FunctionInfo :=
  { name := "main", params := [], return_type := none, calls := ["helper"],
    start_line := 1, end_line := 2 }

def probeHelper : FunctionInfo :=
  { name := "helper", params := [], return_type := none, calls := [],
    start_line := 1, end_line := 2 }

def probeCaller : ParsedFile :=
  { path := "caller.rs", language := "rust", functions := [probeMain],
    classes := [], imports := [], data_tables := [], service_calls := [] }

def probeCallee : ParsedFile :=
  { path := "callee.rs", language := "rust", functions := [probeHelper],
    classes := [], imports := [], data_tables := [], service_calls := [] }

/-- Probe repository for qualified method calls: `zoo.py` defines class `Dog`
with method `bark` and a function `use_dog` whose recorded call name is the
qualified `Dog.bark`. -/
def probeBark : FunctionInfo :=
  { name := "bark", params := [], return_type := none, calls := [],
    start_line := 3, end_line := 4 }

def probeDog : ClassInfo :=
  { name := "Dog", inheritances := [], methods := [probeBark],
    start_line := 1, end_line := 5 }

def probeUseDog : FunctionInfo :=
  { name := "use_dog", params := [], return_type := none, calls := ["Dog.bark"],
    start_line := 6, end_line := 8 }

def probeZoo : ParsedFile :=
  { path := "zoo.py", language := "python", functions := [probeUseDog],
    classes := [probeDog], imports := [], data_tables := [], service_calls := [] }

/-- Probe file for the persisted-store scenarios: one function and one
import, ingested under two different `repo_id` values. -/
def probeFileA : ParsedFile :=
  { path := "a.rs", language := "rust", functions := [probeHelper],
    classes := [], imports := ["serde"], data_tables := [], service_calls := [] }

def probeGraphA : DependencyGraph :=
  DependencyGraph.from_parsed_files [probeFileA]
    (SymbolTable.from_parsed_files [probeFileA])

/-- The store after a full ingest of `probeFileA` under `repo_id = "r1"`. -/
def storeAfterR1 : GraphStore :=
  insert_core_nodes [] "j1" "r1" [probeFileA] probeGraphA none

/-- The store after re-ingesting the same source under `repo_id = "r2"`. -/
def storeAfterR2 : GraphStore :=
  insert_core_nodes storeAfterR1 "j2" "r2" [probeFileA] probeGraphA none

/-- Pipeline outcomes where only the boundary detector fails. -/
def boundaryFailureOutcomes : PipelineOutcomes Unit Unit Unit Unit :=
  { git_open := Except.ok (), git_analyze := Except.ok (),
    boundaries := Except.error "boundary detection failed",
    libraries := Except.ok (), communication := Except.ok (),
    persist := Except.ok () }

/-- Pipeline outcomes where only the git analyzer fails. -/
def gitFailureOutcomes : PipelineOutcomes Unit Unit Unit Unit :=
  { git_open := Except.error "not a git repository",
    git_analyze := Except.error "unused",
    boundaries := Except.ok (), libraries := Except.ok (),
    communication := Except.ok (), persist := Except.ok () }

/-- A parsed file used by the parsing-mode scenarios. -/
def probeParsedB : ParsedFile :=
  { path := "b.py", language := "python", functions := [], classes := [],
    imports := [], data_tables := [], service_calls := [] }

/-- File content with a single-brace `fetch` options object (the shape the
spec describes). -/
def fetchSingleBrace : String :=
  "fetch(\"http://a/x\", \x7bmethod: \"POST\"\x7d)"

/-- The same call with a doubled brace, the only shape the source's
`fetch_method_re` can match. -/
def fetchDoubleBrace : String :=
  "fetch(\"http://a/x\", \x7b\x7bmethod: \"POST\"\x7d\x7d)"

/-- A two-entry symbol table used by the resolution witnesses. -/
def probeTable : SymbolTable :=
  { functions :=
      [("foo", [{ file_path := "a.rs", name := "foo", start_line := 1, end_line := 2 },
                { file_path := "b.rs", name := "foo", start_line := 3, end_line := 4 }])]
    classes := [], file_exports := [], files := [] }

/-- Graph growth: all nodes and edges of `g` survive into `g'`. -/
def GraphLe (g g' : DependencyGraph) : Prop :=
  (∀ x ∈ g.nodes, x ∈ g'.nodes) ∧ (∀ e ∈ g.edges, e ∈ g'.edges)

/-- Every `Calls` edge targets a node derived from some symbol-table entry. -/
def CallsProvEntry (t : SymbolTable) (g : DependencyGraph) : Prop :=
  ∀ e ∈ g.edges, e.edge_type = EdgeType.Calls →
    ∃ se, EntryInMap t.functions se ∧ e.to_ = NodeId.Function se.file_path se.name

-- ===========================================================================
-- Helper lemmas
-- ===========================================================================

theorem foldl_invariant {α : Type _} {β : Type _} (f : β → α → β) (P : β → Prop)
    (h : ∀ b a, P b → P (f b a)) : ∀ (l : List α) (b), P b → P (l.foldl f b) := by
  intro l
  induction l with
  | nil => intro b hb; exact hb
  | cons a l ih => intro b hb; exact ih _ (h _ _ hb)

-- ===========================================================================
-- C10 — contribution totals
-- ===========================================================================

/-- C10: for every `FileContribution` produced by `FileStats::to_contribution`,
`lines_added_total` is the sum of `lines_added` over its contributors,
`lines_deleted_total` is the sum of `lines_deleted` over them, and
`lines_changed_total` is the sum of the two totals. -/
theorem contribution_totals_are_sums (s : FileStats) (path : String) :
    (s.to_contribution path).lines_added_total
      = ((s.to_contribution path).contributors.map (fun c => c.lines_added)).sum
    ∧ (s.to_contribution path).lines_deleted_total
      = ((s.to_contribution path).contributors.map (fun c => c.lines_deleted)).sum
    ∧ (s.to_contribution path).lines_changed_total
      = (s.to_contribution path).lines_added_total
        + (s.to_contribution path).lines_deleted_total :=
  ⟨rfl, rfl, rfl⟩

-- ===========================================================================
-- C8 — fetch endpoint extraction
-- ===========================================================================

/-- C8: evaluating `extract_http_calls` at a `fetch("url", {method: "M"})`
call shows the divergence: the method-specific pattern of the source demands
a doubled `{{` (its regex text is `\{{…[^}}]*…`), so the single-brace call is
matched only by the bare-fetch pattern and comes out as `GET`, not `POST`;
with a doubled brace the method pattern does fire (and the bare pattern
matches the same text again). -/
theorem fetch_method_extraction_eval :
    extract_http_calls "app.ts" fetchSingleBrace
      = [{ file_path := "app.ts", url := "http://a/x", method := "GET",
           host := some "a" }]
    ∧ extract_http_calls "app.ts" fetchDoubleBrace
      = [{ file_path := "app.ts", url := "http://a/x", method := "POST",
           host := some "a" },
         { file_path := "app.ts", url := "http://a/x", method := "GET",
           host := some "a" }] :=
  ⟨rfl, rfl⟩

-- ===========================================================================
-- C1 — persisted node identity
-- ===========================================================================

/-- C1: evaluating the persisted-store model at two full ingests of the same
source under different `repo_id` values. The MERGE keys of the File, Function
and Module upserts are `id = path`, `id = path::name` and `name` alone —
`repo_id` is only SET — so the second ingest reuses the first ingest's nodes
and overwrites their `repo_id` with `"r2"`: the store holds one node per
qualified id, not one per `(repo_id, qualified_id)`. -/
theorem merge_keys_ignore_repo_id :
    storeAfterR2.length = 3
    ∧ (storeAfterR2.filter (fun n => n.label == "File")).length = 1
    ∧ (storeAfterR2.filter (fun n => n.label == "Function")).length = 1
    ∧ (storeAfterR2.filter (fun n => n.label == "Module")).length = 1
    ∧ ((storeAfterR2.find? (fun n => n.label == "File")).map
        (fun n => n.props.getVal "repo_id")) = some (some (PropVal.str "r2"))
    ∧ ((storeAfterR2.find? (fun n => n.label == "Function")).map
        (fun n => n.props.getVal "repo_id")) = some (some (PropVal.str "r2"))
    ∧ ((storeAfterR2.find? (fun n => n.label == "Module")).map
        (fun n => n.props.getVal "repo_id")) = some (some (PropVal.str "r2")) := by
  refine ⟨rfl, rfl, rfl, rfl, rfl, rfl, rfl⟩

-- ===========================================================================
-- C2 — optional analyzer failures
-- ===========================================================================

/-- C2 counterexample: a failure of the boundary detector — one of the four
analyzers the claim calls optional — makes `analyze_repository` return the
error, so the job fails instead of continuing to persistence. -/
theorem boundary_failure_fails_job :
    analyze_repository_flow boundaryFailureOutcomes
      = Except.error "boundary detection failed" := rfl

/-- C2 amended: only the git contribution analyzer is optional — its failure
leaves the enrichment `none` and the pipeline continues to persistence —
while failures of the boundary detector, the library manifest scan or the
communication detector propagate and fail the job. -/
theorem git_failure_nonfatal_others_fatal {Γ B L C : Type}
    (o : PipelineOutcomes Γ B L C) :
    (∀ b l c, o.boundaries = Except.ok b → o.libraries = Except.ok l →
      o.communication = Except.ok c → o.persist = Except.ok () →
      analyze_repository_flow o = Except.ok (gitEnrichment o, b, l, c))
    ∧ (∀ er, o.git_open = Except.error er → gitEnrichment o = none)
    ∧ (∀ er, o.git_analyze = Except.error er → gitEnrichment o = none)
    ∧ (∀ e, o.boundaries = Except.error e →
        analyze_repository_flow o = Except.error e)
    ∧ (∀ e b, o.boundaries = Except.ok b → o.libraries = Except.error e →
        analyze_repository_flow o = Except.error e)
    ∧ (∀ e b l, o.boundaries = Except.ok b → o.libraries = Except.ok l →
        o.communication = Except.error e →
        analyze_repository_flow o = Except.error e)
    ∧ (∀ e b l c, o.boundaries = Except.ok b → o.libraries = Except.ok l →
        o.communication = Except.ok c → o.persist = Except.error e →
        analyze_repository_flow o = Except.error e) := by
  refine ⟨?_, ?_, ?_, ?_, ?_, ?_, ?_⟩
  · intro b l c hb hl hc hp
    simp [analyze_repository_flow, hb, hl, hc, hp]
  · intro er h
    simp [gitEnrichment, h]
  · intro er h
    cases hopen : o.git_open with
    | error e => simp [gitEnrichment, hopen]
    | ok u => simp [gitEnrichment, hopen, h]
  · intro e hb
    simp [analyze_repository_flow, hb]
  · intro e b hb hl
    simp [analyze_repository_flow, hb, hl]
  · intro e b l hb hl hc
    simp [analyze_repository_flow, hb, hl, hc]
  · intro e b l c hb hl hc hp
    simp [analyze_repository_flow, hb, hl, hc, hp]

/-- Witness for the amended C2 theorem: a run where only the git analyzer
fails completes with the git enrichment absent. -/
theorem git_failure_nonfatal_others_fatal_witness :
    analyze_repository_flow gitFailureOutcomes
      = Except.ok ((none : Option Unit), (), (), ()) :=
  (git_failure_nonfatal_others_fatal gitFailureOutcomes).1 () () () rfl rfl rfl rfl

-- ===========================================================================
-- C3 — parse error handling
-- ===========================================================================

/-- C3 counterexample: in incremental mode a parse failure aborts the loop
instead of skipping the file — the remaining file is not parsed and the
error is returned — while the full-mode walk over the same outcomes skips
the failed file and keeps going. -/
theorem incremental_parse_error_aborts :
    parse_repository_subset_results
        [FileParseOutcome.failed "no tree", FileParseOutcome.parsed probeParsedB]
      = Except.error "no tree"
    ∧ parse_repository_subset_results
        [FileParseOutcome.failed "no tree", FileParseOutcome.parsed probeParsedB]
      ≠ Except.ok [probeParsedB]
    ∧ walk_directory_results
        [FileParseOutcome.failed "no tree", FileParseOutcome.parsed probeParsedB]
      = [probeParsedB] := by
  refine ⟨rfl, ?_, rfl⟩
  intro h
  exact Except.noConfusion
    (show (Except.error "no tree" : Except String (List ParsedFile))
        = Except.ok [probeParsedB] from h)

/-- C3 amended: in full parsing mode a file whose parse fails is simply
discarded and the walk continues over the remaining files; in incremental
mode the loop propagates a parse error (failing the job), and succeeds with
exactly the parsed files only when no requested file fails to parse. -/
theorem parse_error_handling_by_mode (entries : List FileParseOutcome) :
    walk_directory_results entries
      = entries.filterMap
          (fun x => match x with
            | FileParseOutcome.parsed pf => some pf
            | _ => none)
    ∧ ((∃ e, FileParseOutcome.failed e ∈ entries)
        ↔ ∃ e, parse_repository_subset_results entries = Except.error e)
    ∧ ((∀ e, FileParseOutcome.failed e ∉ entries) →
        parse_repository_subset_results entries
          = Except.ok (entries.filterMap
              (fun x => match x with
                | FileParseOutcome.parsed pf => some pf
                | _ => none))) := by
  refine ⟨?_, ?_, ?_⟩
  · show walk_directory_results entries = _
    have key : ∀ (l : List FileParseOutcome) (acc : List ParsedFile),
        l.foldl (fun acc entry => match entry with
          | FileParseOutcome.parsed pf => acc ++ [pf]
          | _ => acc) acc
        = acc ++ l.filterMap (fun x => match x with
            | FileParseOutcome.parsed pf => some pf
            | _ => none) := by
      intro l
      induction l with
      | nil => intro acc; simp
      | cons a l ih =>
        intro acc
        cases a <;> simp [ih, List.filterMap_cons]
    simpa [walk_directory_results] using key entries []
  · induction entries with
    | nil =>
      simp [parse_repository_subset_results]
    | cons a l ih =>
      cases a with
      | skipped =>
        simpa [parse_repository_subset_results] using ih
      | parsed pf =>
        constructor
        · rintro ⟨e, he⟩
          have he' : FileParseOutcome.failed e ∈ l := by
            rcases List.mem_cons.mp he with h | h
            · exact absurd h (by simp)
            · exact h
          obtain ⟨e', he''⟩ := ih.mp ⟨e, he'⟩
          exact ⟨e', by simp [parse_repository_subset_results, he'']⟩
        · rintro ⟨e, he⟩
          rw [parse_repository_subset_results] at he
          rcases hr : parse_repository_subset_results l with err | pfs
          · obtain ⟨e'', he''⟩ := ih.mpr ⟨err, hr⟩
            exact ⟨e'', List.mem_cons_of_mem _ he''⟩
          · rw [hr] at he; exact absurd he (by simp)
      | failed e =>
        constructor
        · intro _
          exact ⟨e, by simp [parse_repository_subset_results]⟩
        · intro _
          exact ⟨e, List.mem_cons_self _ _⟩
  · induction entries with
    | nil => intro _; simp [parse_repository_subset_results]
    | cons a l ih =>
      intro h
      have hl : ∀ e, FileParseOutcome.failed e ∉ l := by
        intro e he
        exact h e (List.mem_cons_of_mem _ he)
      cases a with
      | skipped =>
        simpa [parse_repository_subset_results] using ih hl
      | parsed pf =>
        simp [parse_repository_subset_results, ih hl, List.filterMap_cons]
      | failed e =>
        exact absurd (List.mem_cons_self _ _) (h e)

/-- Witness for the amended C3 theorem: a clean incremental parse of one
present file and one missing file returns exactly the parsed file. -/
theorem parse_error_handling_by_mode_witness :
    parse_repository_subset_results
        [FileParseOutcome.skipped, FileParseOutcome.parsed probeParsedB]
      = Except.ok [probeParsedB] :=
  (parse_error_handling_by_mode
      [FileParseOutcome.skipped, FileParseOutcome.parsed probeParsedB]).2.2
    (by intro e he; simp at he)

-- ===========================================================================
-- C5 — resolution rule
-- ===========================================================================

theorem resolveEntries_none_iff (m : SymbolMap) (name cf : String) :
    resolveEntries m name cf = none ↔ SymbolMap.entriesFor m name = [] := by
  unfold resolveEntries SymbolMap.entriesFor
  cases h : SymbolMap.getList m name with
  | none => simp
  | some es =>
    simp only [Option.getD_some]
    cases hf : es.find? (fun e => e.file_path == cf) with
    | some e =>
      constructor
      · intro h'; exact Option.noConfusion h'
      · intro h'; subst h'; exact Option.noConfusion hf
    | none =>
      simp [List.head?_eq_none_iff]

theorem resolveEntries_same_file (m : SymbolMap) (name cf : String)
    (h : ∃ e ∈ SymbolMap.entriesFor m name, e.file_path = cf) :
    ∃ e, resolveEntries m name cf = some e ∧ e.file_path = cf := by
  obtain ⟨e, he, hef⟩ := h
  unfold SymbolMap.entriesFor at he
  cases hg : SymbolMap.getList m name with
  | none => rw [hg] at he; simp at he
  | some es =>
    rw [hg] at he
    simp only [Option.getD_some] at he
    have hsome : (es.find? (fun x => x.file_path == cf)).isSome := by
      rw [List.find?_isSome]
      exact ⟨e, he, by simp [hef]⟩
    obtain ⟨x, hx⟩ := Option.isSome_iff_exists.mp hsome
    refine ⟨x, ?_, ?_⟩
    · have hstep : resolveEntries m name cf
          = (match es.find? (fun e => e.file_path == cf) with
             | some same_file => some same_file
             | none => es.head?) := by
        unfold resolveEntries
        rw [hg]
      rw [hstep, hx]
    · have := List.find?_some hx
      simpa using this

theorem resolveEntries_no_same_file (m : SymbolMap) (name cf : String)
    (h : ¬ ∃ e ∈ SymbolMap.entriesFor m name, e.file_path = cf) :
    resolveEntries m name cf = (SymbolMap.entriesFor m name).head? := by
  unfold resolveEntries SymbolMap.entriesFor
  cases hg : SymbolMap.getList m name with
  | none => simp
  | some es =>
    simp only [Option.getD_some]
    have hf : es.find? (fun x => x.file_path == cf) = none := by
      rw [List.find?_eq_none]
      intro x hx
      simp only [beq_iff_eq]
      intro hxe
      exact h ⟨x, by simp [SymbolMap.entriesFor, hg, hx], hxe⟩
    rw [hf]

/-- C5: `resolve(name, current_file)` returns an entry in `current_file`
whenever one exists for the name, otherwise the first recorded entry for the
name, and it is unresolved exactly when no entry for the name exists — for
both function and class resolution. -/
theorem resolve_prefers_current_file_then_first (t : SymbolTable)
    (name current_file : String) :
    (t.resolve_function name current_file = none
      ↔ SymbolMap.entriesFor t.functions name = [])
    ∧ ((∃ e ∈ SymbolMap.entriesFor t.functions name, e.file_path = current_file) →
        ∃ e, t.resolve_function name current_file = some e
          ∧ e.file_path = current_file)
    ∧ ((¬ ∃ e ∈ SymbolMap.entriesFor t.functions name, e.file_path = current_file) →
        t.resolve_function name current_file
          = (SymbolMap.entriesFor t.functions name).head?)
    ∧ (t.resolve_class name current_file = none
      ↔ SymbolMap.entriesFor t.classes name = [])
    ∧ ((∃ e ∈ SymbolMap.entriesFor t.classes name, e.file_path = current_file) →
        ∃ e, t.resolve_class name current_file = some e
          ∧ e.file_path = current_file)
    ∧ ((¬ ∃ e ∈ SymbolMap.entriesFor t.classes name, e.file_path = current_file) →
        t.resolve_class name current_file
          = (SymbolMap.entriesFor t.classes name).head?) := by
  have hf : t.resolve_function name current_file
      = resolveEntries t.functions name current_file := rfl
  have hc : t.resolve_class name current_file
      = resolveEntries t.classes name current_file := rfl
  rw [hf, hc]
  exact ⟨resolveEntries_none_iff _ _ _,
    fun h => resolveEntries_same_file _ _ _ h,
    fun h => resolveEntries_no_same_file _ _ _ h,
    resolveEntries_none_iff _ _ _,
    fun h => resolveEntries_same_file _ _ _ h,
    fun h => resolveEntries_no_same_file _ _ _ h⟩

/-- Witness for the C5 theorem at a concrete table: `foo` has an entry in
`b.rs`, and resolving `foo` from `b.rs` returns that same-file entry. -/
theorem resolve_prefers_current_file_then_first_witness :
    (∃ e ∈ SymbolMap.entriesFor probeTable.functions "foo", e.file_path = "b.rs")
    ∧ ∃ e, probeTable.resolve_function "foo" "b.rs" = some e
        ∧ e.file_path = "b.rs" := by
  have hex : ∃ e ∈ SymbolMap.entriesFor probeTable.functions "foo",
      e.file_path = "b.rs" := by decide
  exact ⟨hex,
    (resolve_prefers_current_file_then_first probeTable "foo" "b.rs").2.1 hex⟩

-- ===========================================================================
-- C6 — import-to-library normalization
-- ===========================================================================

/-- C6 counterexample: on the quoted import string `"lodash"` (quotes
included) the source function trims the quote characters first and returns
`lodash`, while the claim's rule applied to the raw string keeps the quotes;
so the claimed characterization fails on untrimmed inputs. -/
theorem normalize_quoted_import_counterexample :
    normalize_import_to_library "\"lodash\"" = some "lodash"
    ∧ importRuleRaw "\"lodash\"" = some "\"lodash\""
    ∧ normalize_import_to_library "\"lodash\"" ≠ importRuleRaw "\"lodash\"" := by
  refine ⟨rfl, rfl, by decide⟩

/-- C6 amended: the source normalization applies exactly the claim's rule to
the trimmed import string (whitespace, then double quotes, then backticks
stripped from both ends); the claim's four concrete normalizations hold as
stated. -/
theorem normalize_import_rule_after_trim (s : String) :
    normalize_import_to_library s = importRuleRaw (trimImport s)
    ∧ normalize_import_to_library "./a/b" = none
    ∧ normalize_import_to_library "/a/b" = none
    ∧ normalize_import_to_library "@scope/pkg/sub" = some "@scope/pkg"
    ∧ normalize_import_to_library "lodash/fp" = some "lodash" := by
  refine ⟨?_, rfl, rfl, rfl, rfl⟩
  simp only [normalize_import_to_library]
  generalize trimImport s = t
  cases h1 : startsWithChar t '.' || startsWithChar t '/'
  · cases h2 : splitCharS '/' t with
    | nil => simp [importRuleRaw, h1, h2]
    | cons p0 rest =>
      cases rest with
      | nil =>
        cases h3 : startsWithChar t '@' <;>
          simp [importRuleRaw, h1, h2, h3]
      | cons p1 rest' =>
        cases h3 : startsWithChar t '@' <;>
          simp [importRuleRaw, h1, h2, h3, Nat.le_add_left]
  · simp [importRuleRaw, h1]

-- ===========================================================================
-- C7 — incremental deletes
-- ===========================================================================

theorem mem_rustDedup {a : String} : ∀ {l : List String},
    a ∈ rustDedup l ↔ a ∈ l := by
  intro l
  induction l with
  | nil => simp [rustDedup]
  | cons x rest ih =>
    cases rest with
    | nil => simp [rustDedup]
    | cons y rest' =>
      by_cases h : x = y
      · rw [rustDedup]
        simp only [if_pos h]
        rw [ih]
        subst h
        simp [List.mem_cons]
      · rw [rustDedup]
        simp only [if_neg h]
        simp only [List.mem_cons]
        rw [ih]
        simp [List.mem_cons]

theorem strLeAux_antisymm : ∀ {as bs : List Char},
    strLeAux as bs = true → strLeAux bs as = true → as = bs := by
  intro as
  induction as with
  | nil =>
    intro bs hab hba
    cases bs with
    | nil => rfl
    | cons b bs => exact absurd hba (by simp [strLeAux])
  | cons a as ih =>
    intro bs hab hba
    cases bs with
    | nil => exact absurd hab (by simp [strLeAux])
    | cons b bs =>
      by_cases hh : a = b
      · subst hh
        rw [strLeAux, if_pos rfl] at hab hba
        rw [ih hab hba]
      · rw [strLeAux, if_neg hh] at hab
        rw [strLeAux, if_neg (fun h => hh h.symm)] at hba
        simp only [decide_eq_true_eq] at hab hba
        omega

theorem strLe_antisymm {a b : String} (hab : strLe a b = true)
    (hba : strLe b a = true) : a = b := by
  have := strLeAux_antisymm hab hba
  cases a; cases b
  exact congrArg String.mk (by simpa [String.toList] using this)

theorem strLeAux_total : ∀ (as bs : List Char),
    strLeAux as bs = true ∨ strLeAux bs as = true := by
  intro as
  induction as with
  | nil => intro bs; exact Or.inl rfl
  | cons a as ih =>
    intro bs
    cases bs with
    | nil => exact Or.inr rfl
    | cons b bs =>
      by_cases hh : a = b
      · subst hh
        rw [strLeAux, if_pos rfl, strLeAux, if_pos rfl]
        exact ih bs
      · have hne : a.toNat ≠ b.toNat := by
          intro h
          exact hh (Char.eq_of_val_eq (UInt32.ext h))
        rw [strLeAux, if_neg hh, strLeAux, if_neg (fun h => hh h.symm)]
        simp only [decide_eq_true_eq]
        omega

theorem strLeAux_trans : ∀ (as bs cs : List Char),
    strLeAux as bs = true → strLeAux bs cs = true → strLeAux as cs = true := by
  intro as
  induction as with
  | nil => intro bs cs _ _; rfl
  | cons a as ih =>
    intro bs cs hab hbc
    cases bs with
    | nil => exact absurd hab (by simp [strLeAux])
    | cons b bs =>
      cases cs with
      | nil => exact absurd hbc (by simp [strLeAux])
      | cons c cs =>
        by_cases hh1 : a = b
        · subst hh1
          rw [strLeAux, if_pos rfl] at hab
          by_cases hh2 : a = c
          · subst hh2
            rw [strLeAux, if_pos rfl] at hbc ⊢
            exact ih _ _ hab hbc
          · rw [strLeAux, if_neg hh2] at hbc ⊢
            exact hbc
        · rw [strLeAux, if_neg hh1] at hab
          simp only [decide_eq_true_eq] at hab
          by_cases hh2 : b = c
          · subst hh2
            rw [strLeAux, if_neg hh1]
            simp only [decide_eq_true_eq]
            exact hab
          · rw [strLeAux, if_neg hh2] at hbc
            simp only [decide_eq_true_eq] at hbc
            have hac : a.toNat < c.toNat := by omega
            have hne : a ≠ c := by
              intro h
              subst h
              omega
            rw [strLeAux, if_neg hne]
            simp only [decide_eq_true_eq]
            exact hac

instance : IsTotal String (fun a b => strLe a b = true) :=
  ⟨fun a b => strLeAux_total a.toList b.toList⟩

instance : IsTrans String (fun a b => strLe a b = true) :=
  ⟨fun a b c => strLeAux_trans a.toList b.toList c.toList⟩

theorem rustDedup_nodup : ∀ {l : List String},
    l.Sorted (fun a b => strLe a b = true) → (rustDedup l).Nodup := by
  intro l
  induction l with
  | nil => intro _; simp [rustDedup]
  | cons x rest ih =>
    intro hs
    cases rest with
    | nil => simp [rustDedup]
    | cons y rest' =>
      rcases List.sorted_cons.mp hs with ⟨hxall, hs'⟩
      by_cases h : x = y
      · rw [rustDedup]
        simp only [if_pos h]
        exact ih hs'
      · rw [rustDedup]
        simp only [if_neg h]
        refine List.nodup_cons.mpr ⟨?_, ih hs'⟩
        intro hmem
        have hx : x ∈ y :: rest' := mem_rustDedup.mp hmem
        rcases List.mem_cons.mp hx with h' | h'
        · exact h h'
        · rcases List.sorted_cons.mp hs' with ⟨hyall, _⟩
          have h1 : strLe x y = true := hxall y (List.mem_cons_self _ _)
          have h2 : strLe y x = true := hyall x h'
          exact h (strLe_antisymm h1 h2)

theorem deletes_prefix_ordering {A B : List StoreOp}
    (hA : ∀ op ∈ A, op.isDelete = true) (hB : ∀ op ∈ B, op.isDelete = false) :
    ∀ i j (hi : i < (A ++ B).length) (hj : j < (A ++ B).length),
      ((A ++ B).get ⟨i, hi⟩).isDelete = true →
      ((A ++ B).get ⟨j, hj⟩).isDelete = false → i < j := by
  intro i j hi hj hdi huj
  have hlen : (A ++ B).length = A.length + B.length := List.length_append _ _
  have hiA : i < A.length := by
    by_contra hcon
    push_neg at hcon
    have hgi : (A ++ B).get ⟨i, hi⟩ = B.get ⟨i - A.length, by omega⟩ := by
      simp only [List.get_eq_getElem]
      exact List.getElem_append_right hcon
    have hmem : (A ++ B).get ⟨i, hi⟩ ∈ B := by
      rw [hgi]; exact List.get_mem _ _ _
    have := hB _ hmem
    rw [hdi] at this
    exact Bool.noConfusion this
  have hjA : A.length ≤ j := by
    by_contra hcon
    push_neg at hcon
    have hgj : (A ++ B).get ⟨j, hj⟩ = A.get ⟨j, hcon⟩ := by
      simp only [List.get_eq_getElem]
      exact List.getElem_append_left _
    have hmem : (A ++ B).get ⟨j, hj⟩ ∈ A := by
      rw [hgj]; exact List.get_mem _ _ _
    have := hA _ hmem
    rw [huj] at this
    exact Bool.noConfusion this
  omega

/-- C7: in an incremental ingest, the path list handed to the detach-delete
step is exactly the duplicate-free union of `changed_files` and
`removed_files`; the deletes in the transaction trace are precisely the File,
Class-by-file and Function-by-file deletions over that list; and every delete
precedes every upsert in the trace. -/
theorem incremental_deletes_union_before_upserts (changed removed : List String) :
    (∀ p, p ∈ files_to_remove changed removed ↔ p ∈ changed ∨ p ∈ removed)
    ∧ (files_to_remove changed removed).Nodup
    ∧ ((store_graph_incremental_ops changed removed).filter StoreOp.isDelete
        = delete_file_nodes_ops (files_to_remove changed removed))
    ∧ (∀ i j (hi : i < (store_graph_incremental_ops changed removed).length)
        (hj : j < (store_graph_incremental_ops changed removed).length),
        ((store_graph_incremental_ops changed removed).get ⟨i, hi⟩).isDelete = true →
        ((store_graph_incremental_ops changed removed).get ⟨j, hj⟩).isDelete = false →
        i < j) := by
  refine ⟨?_, ?_, ?_, ?_⟩
  · intro p
    unfold files_to_remove rustSort
    rw [mem_rustDedup, List.mem_insertionSort, List.mem_append]
  · exact rustDedup_nodup
      (List.sorted_insertionSort (fun a b => strLe a b = true) (changed ++ removed))
  · unfold store_graph_incremental_ops
    rw [List.filter_append]
    have hbatch : execute_batch_operations_ops.filter StoreOp.isDelete = [] := rfl
    rw [hbatch, List.append_nil]
    unfold delete_file_nodes_ops
    by_cases hfe : files_to_remove changed removed = []
    · simp [hfe]
    · simp [hfe, StoreOp.isDelete]
  · unfold store_graph_incremental_ops
    apply deletes_prefix_ordering
    · intro op hop
      unfold delete_file_nodes_ops at hop
      by_cases hfe : files_to_remove changed removed = []
      · simp [hfe] at hop
      · rw [if_neg hfe] at hop
        rcases List.mem_cons.mp hop with h | h
        · subst h; rfl
        · rcases List.mem_cons.mp h with h' | h'
          · subst h'; rfl
          · rcases List.mem_cons.mp h' with h'' | h''
            · subst h''; rfl
            · exact absurd h'' (List.not_mem_nil _)
    · intro op hop
      fin_cases hop <;> rfl

/-- Witness for the C7 theorem at concrete inputs: the duplicated path
appears once in the delete list, and the first delete precedes the first
upsert in the trace. -/
theorem incremental_deletes_union_before_upserts_witness :
    ("a.py" ∈ files_to_remove ["b.py", "a.py"] ["a.py"]) ∧ (0 : Nat) < 3 := by
  constructor
  · exact (incremental_deletes_union_before_upserts ["b.py", "a.py"] ["a.py"]).1
      "a.py" |>.mpr (Or.inr (by simp))
  · exact (incremental_deletes_union_before_upserts ["b.py", "a.py"] ["a.py"]).2.2.2
      0 3 (by decide) (by decide) (by decide) (by decide)

-- ===========================================================================
-- Graph-construction invariants (infrastructure for C4 and C9)
-- ===========================================================================

theorem mem_insertNode_of_mem {ns : List NodeId} {n x : NodeId} (h : x ∈ ns) :
    x ∈ insertNode ns n := by
  unfold insertNode
  split
  · exact h
  · exact List.mem_cons_of_mem _ h

theorem self_mem_insertNode (ns : List NodeId) (n : NodeId) : n ∈ insertNode ns n := by
  unfold insertNode
  split
  · assumption
  · exact List.mem_cons_self _ _

theorem GraphLe.refl (g : DependencyGraph) : GraphLe g g :=
  ⟨fun _ h => h, fun _ h => h⟩

theorem GraphLe.trans {g₁ g₂ g₃ : DependencyGraph}
    (h₁ : GraphLe g₁ g₂) (h₂ : GraphLe g₂ g₃) : GraphLe g₁ g₃ :=
  ⟨fun x hx => h₂.1 x (h₁.1 x hx), fun e he => h₂.2 e (h₁.2 e he)⟩

theorem foldl_graphLe {α : Type _} (step : DependencyGraph → α → DependencyGraph)
    (hstep : ∀ g a, GraphLe g (step g a)) :
    ∀ (l : List α) (g : DependencyGraph), GraphLe g (l.foldl step g) := by
  intro l
  induction l with
  | nil => intro g; exact GraphLe.refl g
  | cons a l ih =>
    intro g
    exact GraphLe.trans (hstep g a) (ih (step g a))

theorem addCallStep_le (t : SymbolTable) (c : NodeId) (cf : String)
    (g : DependencyGraph) (call : String) : GraphLe g (addCallStep t c cf g call) := by
  unfold addCallStep
  cases t.resolve_function call cf with
  | some e =>
    exact ⟨fun x hx => mem_insertNode_of_mem hx,
      fun e' he' => List.mem_append_left _ he'⟩
  | none => exact GraphLe.refl g

theorem add_call_edges_le (g : DependencyGraph) (c : NodeId) (f : FunctionInfo)
    (cf : String) (t : SymbolTable) : GraphLe g (add_call_edges g c f cf t) :=
  foldl_graphLe _ (addCallStep_le t c cf) f.calls g

theorem processFunction_le (t : SymbolTable) (fn : NodeId) (p : String)
    (g : DependencyGraph) (func : FunctionInfo) :
    GraphLe g (processFunction t fn p g func) := by
  have h1 : GraphLe g
      { nodes := insertNode g.nodes (NodeId.Function p func.name)
        edges := g.edges ++ [{ from_ := fn, to_ := NodeId.Function p func.name,
                               edge_type := EdgeType.Defines, properties := [] }] } :=
    ⟨fun x hx => mem_insertNode_of_mem hx,
     fun e' he' => List.mem_append_left _ he'⟩
  exact h1.trans (add_call_edges_le _ _ _ _ _)

theorem processInheritance_le (t : SymbolTable) (cn : NodeId) (p : String)
    (g : DependencyGraph) (i : InheritanceInfo) :
    GraphLe g (processInheritance t cn p g i) := by
  unfold processInheritance
  cases t.resolve_class i.name p with
  | some e =>
    exact ⟨fun x hx => mem_insertNode_of_mem hx,
      fun e' he' => List.mem_append_left _ he'⟩
  | none =>
    exact ⟨fun x hx => mem_insertNode_of_mem hx,
      fun e' he' => List.mem_append_left _ he'⟩

theorem processMethod_le (t : SymbolTable) (cn : NodeId) (p : String)
    (g : DependencyGraph) (m : FunctionInfo) :
    GraphLe g (processMethod t cn p g m) := by
  have h1 : GraphLe g
      { nodes := insertNode g.nodes (NodeId.Function p m.name)
        edges := g.edges ++ [{ from_ := cn, to_ := NodeId.Function p m.name,
                               edge_type := EdgeType.Contains, properties := [] }] } :=
    ⟨fun x hx => mem_insertNode_of_mem hx,
     fun e' he' => List.mem_append_left _ he'⟩
  exact h1.trans (add_call_edges_le _ _ _ _ _)

theorem processClass_le (t : SymbolTable) (fn : NodeId) (p : String)
    (g : DependencyGraph) (c : ClassInfo) : GraphLe g (processClass t fn p g c) := by
  have h1 : GraphLe g
      { nodes := insertNode g.nodes (NodeId.Class p c.name)
        edges := g.edges ++ [{ from_ := fn, to_ := NodeId.Class p c.name,
                               edge_type := EdgeType.Defines, properties := [] }] } :=
    ⟨fun x hx => mem_insertNode_of_mem hx,
     fun e' he' => List.mem_append_left _ he'⟩
  have h2 := foldl_graphLe _ (processInheritance_le t (NodeId.Class p c.name) p)
    c.inheritances
    { nodes := insertNode g.nodes (NodeId.Class p c.name)
      edges := g.edges ++ [{ from_ := fn, to_ := NodeId.Class p c.name,
                             edge_type := EdgeType.Defines, properties := [] }] }
  have h3 := foldl_graphLe _ (processMethod_le t (NodeId.Class p c.name) p)
    c.methods
    (List.foldl (processInheritance t (NodeId.Class p c.name) p)
      { nodes := insertNode g.nodes (NodeId.Class p c.name)
        edges := g.edges ++ [{ from_ := fn, to_ := NodeId.Class p c.name,
                               edge_type := EdgeType.Defines, properties := [] }] }
      c.inheritances)
  exact h1.trans (h2.trans h3)

theorem processImport_le (fn : NodeId) (g : DependencyGraph) (i : String) :
    GraphLe g (processImport fn g i) := by
  unfold processImport
  exact ⟨fun x hx => mem_insertNode_of_mem hx,
    fun e' he' => List.mem_append_left _ he'⟩

theorem processFile_le (t : SymbolTable) (g : DependencyGraph) (file : ParsedFile) :
    GraphLe g (processFile t g file) := by
  have h1 : GraphLe g { g with nodes := insertNode g.nodes (NodeId.File file.path) } :=
    ⟨fun x hx => mem_insertNode_of_mem hx, fun e' he' => he'⟩
  have h2 := foldl_graphLe _ (processFunction_le t (NodeId.File file.path) file.path)
    file.functions { g with nodes := insertNode g.nodes (NodeId.File file.path) }
  have h3 := foldl_graphLe _ (processClass_le t (NodeId.File file.path) file.path)
    file.classes
    (List.foldl (processFunction t (NodeId.File file.path) file.path)
      { g with nodes := insertNode g.nodes (NodeId.File file.path) } file.functions)
  have h4 := foldl_graphLe _ (processImport_le (NodeId.File file.path)) file.imports
    (List.foldl (processClass t (NodeId.File file.path) file.path)
      (List.foldl (processFunction t (NodeId.File file.path) file.path)
        { g with nodes := insertNode g.nodes (NodeId.File file.path) } file.functions)
      file.classes)
  exact h1.trans (h2.trans (h3.trans h4))

theorem edgesOk_push {g : DependencyGraph} {e : Edge} {ns : List NodeId}
    (hg : EdgesOk g) (hmono : ∀ x ∈ g.nodes, x ∈ ns)
    (hf : e.from_ ∈ ns) (ht : e.to_ ∈ ns) :
    EdgesOk { nodes := ns, edges := g.edges ++ [e] } := by
  intro e' he'
  rcases List.mem_append.mp he' with h | h
  · obtain ⟨h1, h2⟩ := hg e' h
    exact ⟨hmono _ h1, hmono _ h2⟩
  · rw [List.mem_singleton.mp h]
    exact ⟨hf, ht⟩

theorem addCallStep_ok {t : SymbolTable} {c : NodeId} {cf : String}
    {g : DependencyGraph} {call : String}
    (hg : EdgesOk g) (hc : c ∈ g.nodes) : EdgesOk (addCallStep t c cf g call) := by
  unfold addCallStep
  cases t.resolve_function call cf with
  | some callee =>
    exact edgesOk_push hg (fun x hx => mem_insertNode_of_mem hx)
      (mem_insertNode_of_mem hc) (self_mem_insertNode _ _)
  | none => exact hg

theorem add_call_edges_ok {t : SymbolTable} {c : NodeId} {cf : String}
    {g : DependencyGraph} {f : FunctionInfo}
    (hg : EdgesOk g) (hc : c ∈ g.nodes) : EdgesOk (add_call_edges g c f cf t) := by
  have h := foldl_invariant (addCallStep t c cf)
    (fun g' => EdgesOk g' ∧ c ∈ g'.nodes)
    (fun g' a ⟨h1, h2⟩ => ⟨addCallStep_ok h1 h2, (addCallStep_le t c cf g' a).1 _ h2⟩)
    f.calls g ⟨hg, hc⟩
  exact h.1

theorem processFunction_ok {t : SymbolTable} {fn : NodeId} {p : String}
    {g : DependencyGraph} {func : FunctionInfo}
    (hg : EdgesOk g) (hfn : fn ∈ g.nodes) :
    EdgesOk (processFunction t fn p g func) := by
  have h1 : EdgesOk
      { nodes := insertNode g.nodes (NodeId.Function p func.name)
        edges := g.edges ++ [{ from_ := fn, to_ := NodeId.Function p func.name,
                               edge_type := EdgeType.Defines, properties := [] }] } :=
    edgesOk_push hg (fun x hx => mem_insertNode_of_mem hx)
      (mem_insertNode_of_mem hfn) (self_mem_insertNode _ _)
  exact add_call_edges_ok h1 (self_mem_insertNode _ _)

theorem processInheritance_ok {t : SymbolTable} {cn : NodeId} {p : String}
    {g : DependencyGraph} {i : InheritanceInfo}
    (hg : EdgesOk g) (hcn : cn ∈ g.nodes) :
    EdgesOk (processInheritance t cn p g i) := by
  unfold processInheritance
  cases t.resolve_class i.name p with
  | some parent =>
    exact edgesOk_push hg (fun x hx => mem_insertNode_of_mem hx)
      (mem_insertNode_of_mem hcn) (self_mem_insertNode _ _)
  | none =>
    exact edgesOk_push hg (fun x hx => mem_insertNode_of_mem hx)
      (mem_insertNode_of_mem hcn) (self_mem_insertNode _ _)

theorem processMethod_ok {t : SymbolTable} {cn : NodeId} {p : String}
    {g : DependencyGraph} {m : FunctionInfo}
    (hg : EdgesOk g) (hcn : cn ∈ g.nodes) :
    EdgesOk (processMethod t cn p g m) := by
  have h1 : EdgesOk
      { nodes := insertNode g.nodes (NodeId.Function p m.name)
        edges := g.edges ++ [{ from_ := cn, to_ := NodeId.Function p m.name,
                               edge_type := EdgeType.Contains, properties := [] }] } :=
    edgesOk_push hg (fun x hx => mem_insertNode_of_mem hx)
      (mem_insertNode_of_mem hcn) (self_mem_insertNode _ _)
  exact add_call_edges_ok h1 (self_mem_insertNode _ _)

theorem processClass_ok {t : SymbolTable} {fn : NodeId} {p : String}
    {g : DependencyGraph} {c : ClassInfo}
    (hg : EdgesOk g) (hfn : fn ∈ g.nodes) :
    EdgesOk (processClass t fn p g c) := by
  have h1 : EdgesOk
      { nodes := insertNode g.nodes (NodeId.Class p c.name)
        edges := g.edges ++ [{ from_ := fn, to_ := NodeId.Class p c.name,
                               edge_type := EdgeType.Defines, properties := [] }] } :=
    edgesOk_push hg (fun x hx => mem_insertNode_of_mem hx)
      (mem_insertNode_of_mem hfn) (self_mem_insertNode _ _)
  have h2 := foldl_invariant (processInheritance t (NodeId.Class p c.name) p)
    (fun g' => EdgesOk g' ∧ NodeId.Class p c.name ∈ g'.nodes)
    (fun g' a ⟨ha, hb⟩ =>
      ⟨processInheritance_ok ha hb, (processInheritance_le t _ p g' a).1 _ hb⟩)
    c.inheritances _ ⟨h1, self_mem_insertNode _ _⟩
  have h3 := foldl_invariant (processMethod t (NodeId.Class p c.name) p)
    (fun g' => EdgesOk g' ∧ NodeId.Class p c.name ∈ g'.nodes)
    (fun g' a ⟨ha, hb⟩ =>
      ⟨processMethod_ok ha hb, (processMethod_le t _ p g' a).1 _ hb⟩)
    c.methods _ h2
  exact h3.1

theorem processImport_ok {fn : NodeId} {g : DependencyGraph} {i : String}
    (hg : EdgesOk g) (hfn : fn ∈ g.nodes) : EdgesOk (processImport fn g i) :=
  edgesOk_push hg (fun x hx => mem_insertNode_of_mem hx)
    (mem_insertNode_of_mem hfn) (self_mem_insertNode _ _)

theorem processFile_ok {t : SymbolTable} {g : DependencyGraph} {file : ParsedFile}
    (hg : EdgesOk g) : EdgesOk (processFile t g file) := by
  have h0 : EdgesOk { g with nodes := insertNode g.nodes (NodeId.File file.path) } := by
    intro e he
    obtain ⟨h1, h2⟩ := hg e he
    exact ⟨mem_insertNode_of_mem h1, mem_insertNode_of_mem h2⟩
  have h1 := foldl_invariant (processFunction t (NodeId.File file.path) file.path)
    (fun g' => EdgesOk g' ∧ NodeId.File file.path ∈ g'.nodes)
    (fun g' a ⟨ha, hb⟩ =>
      ⟨processFunction_ok ha hb, (processFunction_le t _ _ g' a).1 _ hb⟩)
    file.functions _ ⟨h0, self_mem_insertNode _ _⟩
  have h2 := foldl_invariant (processClass t (NodeId.File file.path) file.path)
    (fun g' => EdgesOk g' ∧ NodeId.File file.path ∈ g'.nodes)
    (fun g' a ⟨ha, hb⟩ =>
      ⟨processClass_ok ha hb, (processClass_le t _ _ g' a).1 _ hb⟩)
    file.classes _ h1
  have h3 := foldl_invariant (processImport (NodeId.File file.path))
    (fun g' => EdgesOk g' ∧ NodeId.File file.path ∈ g'.nodes)
    (fun g' a ⟨ha, hb⟩ =>
      ⟨processImport_ok ha hb, (processImport_le _ g' a).1 _ hb⟩)
    file.imports _ h2
  exact h3.1

theorem edgesOk_from_parsed_files (parsed_files : List ParsedFile) (t : SymbolTable) :
    EdgesOk (DependencyGraph.from_parsed_files parsed_files t) := by
  unfold DependencyGraph.from_parsed_files
  have h := foldl_invariant (processFile t) EdgesOk
    (fun g a hg => processFile_ok hg)
    parsed_files DependencyGraph.empty
    (by intro e he; exact absurd he (List.not_mem_nil _))
  exact h

-- ===========================================================================
-- C9 — edge endpoints are nodes
-- ===========================================================================

/-- C9: in the graph built from any list of parsed files together with the
symbol table built from that same list, both endpoints of every edge belong
to the node set. -/
theorem graph_edge_endpoints_in_nodes (parsed_files : List ParsedFile) (e : Edge)
    (he : e ∈ (DependencyGraph.from_parsed_files parsed_files
      (SymbolTable.from_parsed_files parsed_files)).edges) :
    e.from_ ∈ (DependencyGraph.from_parsed_files parsed_files
        (SymbolTable.from_parsed_files parsed_files)).nodes
    ∧ e.to_ ∈ (DependencyGraph.from_parsed_files parsed_files
        (SymbolTable.from_parsed_files parsed_files)).nodes :=
  edgesOk_from_parsed_files parsed_files (SymbolTable.from_parsed_files parsed_files) e he

/-- Witness for the C9 theorem: the cross-file `Calls` edge of the probe
repository has both endpoints in the node set. -/
theorem graph_edge_endpoints_in_nodes_witness :
    NodeId.Function "caller.rs" "main"
      ∈ (DependencyGraph.from_parsed_files [probeCaller, probeCallee]
          (SymbolTable.from_parsed_files [probeCaller, probeCallee])).nodes
    ∧ NodeId.Function "callee.rs" "helper"
      ∈ (DependencyGraph.from_parsed_files [probeCaller, probeCallee]
          (SymbolTable.from_parsed_files [probeCaller, probeCallee])).nodes :=
  graph_edge_endpoints_in_nodes [probeCaller, probeCallee]
    { from_ := NodeId.Function "caller.rs" "main"
      to_ := NodeId.Function "callee.rs" "helper"
      edge_type := EdgeType.Calls, properties := [] }
    (by decide)

-- ===========================================================================
-- Calls-edge emission (infrastructure for C4)
-- ===========================================================================

theorem foldl_addCallStep_emits {t : SymbolTable} {caller : NodeId} {cf : String}
    {x : String} {E : SymbolEntry}
    (hres : t.resolve_function x cf = some E) :
    ∀ (l : List String) (g : DependencyGraph), x ∈ l →
      { from_ := caller, to_ := NodeId.Function E.file_path E.name,
        edge_type := EdgeType.Calls, properties := [] }
        ∈ (l.foldl (addCallStep t caller cf) g).edges := by
  intro l
  induction l with
  | nil => intro g h; exact absurd h (List.not_mem_nil _)
  | cons a l ih =>
    intro g hmem
    rcases List.mem_cons.mp hmem with h | h
    · subst h
      have hstep :
          { from_ := caller, to_ := NodeId.Function E.file_path E.name,
            edge_type := EdgeType.Calls, properties := [] }
            ∈ (addCallStep t caller cf g x).edges := by
        unfold addCallStep
        rw [hres]
        exact List.mem_append_right _ (List.mem_singleton_self _)
      exact (foldl_graphLe _ (addCallStep_le t caller cf) l _).2 _ hstep
    · exact ih (addCallStep t caller cf g a) h

theorem processFunction_emits {t : SymbolTable} {fn : NodeId} {p : String}
    {g : DependencyGraph} {func : FunctionInfo} {x : String} {E : SymbolEntry}
    (hx : x ∈ func.calls) (hres : t.resolve_function x p = some E) :
    { from_ := NodeId.Function p func.name,
      to_ := NodeId.Function E.file_path E.name,
      edge_type := EdgeType.Calls, properties := [] }
      ∈ (processFunction t fn p g func).edges :=
  foldl_addCallStep_emits hres func.calls _ hx

theorem processMethod_emits {t : SymbolTable} {cn : NodeId} {p : String}
    {g : DependencyGraph} {m : FunctionInfo} {x : String} {E : SymbolEntry}
    (hx : x ∈ m.calls) (hres : t.resolve_function x p = some E) :
    { from_ := NodeId.Function p m.name,
      to_ := NodeId.Function E.file_path E.name,
      edge_type := EdgeType.Calls, properties := [] }
      ∈ (processMethod t cn p g m).edges :=
  foldl_addCallStep_emits hres m.calls _ hx

theorem functions_fold_emits {t : SymbolTable} {fn : NodeId} {p : String}
    {F : FunctionInfo} {x : String} {E : SymbolEntry}
    (hx : x ∈ F.calls) (hres : t.resolve_function x p = some E) :
    ∀ (l : List FunctionInfo) (g : DependencyGraph), F ∈ l →
      { from_ := NodeId.Function p F.name,
        to_ := NodeId.Function E.file_path E.name,
        edge_type := EdgeType.Calls, properties := [] }
        ∈ (l.foldl (processFunction t fn p) g).edges := by
  intro l
  induction l with
  | nil => intro g h; exact absurd h (List.not_mem_nil _)
  | cons a l ih =>
    intro g hmem
    rcases List.mem_cons.mp hmem with h | h
    · subst h
      exact (foldl_graphLe _ (processFunction_le t fn p) l _).2 _
        (processFunction_emits hx hres)
    · exact ih _ h

theorem methods_fold_emits {t : SymbolTable} {cn : NodeId} {p : String}
    {M : FunctionInfo} {x : String} {E : SymbolEntry}
    (hx : x ∈ M.calls) (hres : t.resolve_function x p = some E) :
    ∀ (l : List FunctionInfo) (g : DependencyGraph), M ∈ l →
      { from_ := NodeId.Function p M.name,
        to_ := NodeId.Function E.file_path E.name,
        edge_type := EdgeType.Calls, properties := [] }
        ∈ (l.foldl (processMethod t cn p) g).edges := by
  intro l
  induction l with
  | nil => intro g h; exact absurd h (List.not_mem_nil _)
  | cons a l ih =>
    intro g hmem
    rcases List.mem_cons.mp hmem with h | h
    · subst h
      exact (foldl_graphLe _ (processMethod_le t cn p) l _).2 _
        (processMethod_emits hx hres)
    · exact ih _ h

theorem processClass_emits {t : SymbolTable} {fn : NodeId} {p : String}
    {g : DependencyGraph} {c : ClassInfo} {M : FunctionInfo} {x : String}
    {E : SymbolEntry}
    (hM : M ∈ c.methods) (hx : x ∈ M.calls)
    (hres : t.resolve_function x p = some E) :
    { from_ := NodeId.Function p M.name,
      to_ := NodeId.Function E.file_path E.name,
      edge_type := EdgeType.Calls, properties := [] }
      ∈ (processClass t fn p g c).edges :=
  methods_fold_emits hx hres c.methods _ hM

theorem classes_fold_emits {t : SymbolTable} {fn : NodeId} {p : String}
    {c : ClassInfo} {M : FunctionInfo} {x : String} {E : SymbolEntry}
    (hM : M ∈ c.methods) (hx : x ∈ M.calls)
    (hres : t.resolve_function x p = some E) :
    ∀ (l : List ClassInfo) (g : DependencyGraph), c ∈ l →
      { from_ := NodeId.Function p M.name,
        to_ := NodeId.Function E.file_path E.name,
        edge_type := EdgeType.Calls, properties := [] }
        ∈ (l.foldl (processClass t fn p) g).edges := by
  intro l
  induction l with
  | nil => intro g h; exact absurd h (List.not_mem_nil _)
  | cons a l ih =>
    intro g hmem
    rcases List.mem_cons.mp hmem with h | h
    · subst h
      exact (foldl_graphLe _ (processClass_le t fn p) l _).2 _
        (processClass_emits hM hx hres)
    · exact ih _ h

theorem processFile_emits {t : SymbolTable} {g : DependencyGraph}
    {file : ParsedFile} {F : FunctionInfo} {x : String} {E : SymbolEntry}
    (hF : F ∈ file.functions ∨ ∃ c ∈ file.classes, F ∈ c.methods)
    (hx : x ∈ F.calls)
    (hres : t.resolve_function x file.path = some E) :
    { from_ := NodeId.Function file.path F.name,
      to_ := NodeId.Function E.file_path E.name,
      edge_type := EdgeType.Calls, properties := [] }
      ∈ (processFile t g file).edges := by
  show _ ∈ (List.foldl (processImport (NodeId.File file.path))
    (List.foldl (processClass t (NodeId.File file.path) file.path)
      (List.foldl (processFunction t (NodeId.File file.path) file.path)
        { g with nodes := insertNode g.nodes (NodeId.File file.path) }
        file.functions)
      file.classes)
    file.imports).edges
  apply (foldl_graphLe _ (processImport_le (NodeId.File file.path))
    file.imports _).2
  rcases hF with hF | ⟨c, hc, hM⟩
  · apply (foldl_graphLe _ (processClass_le t (NodeId.File file.path) file.path)
      file.classes _).2
    exact functions_fold_emits hx hres file.functions _ hF
  · exact classes_fold_emits hM hx hres file.classes _ hc

theorem from_parsed_files_emits {t : SymbolTable} {f : ParsedFile}
    {F : FunctionInfo} {x : String} {E : SymbolEntry}
    (hF : F ∈ f.functions ∨ ∃ c ∈ f.classes, F ∈ c.methods)
    (hx : x ∈ F.calls)
    (hres : t.resolve_function x f.path = some E) :
    ∀ (files : List ParsedFile), f ∈ files →
      { from_ := NodeId.Function f.path F.name,
        to_ := NodeId.Function E.file_path E.name,
        edge_type := EdgeType.Calls, properties := [] }
        ∈ (DependencyGraph.from_parsed_files files t).edges := by
  have key : ∀ (files : List ParsedFile) (g : DependencyGraph), f ∈ files →
      { from_ := NodeId.Function f.path F.name,
        to_ := NodeId.Function E.file_path E.name,
        edge_type := EdgeType.Calls, properties := [] }
        ∈ (files.foldl (processFile t) g).edges := by
    intro files
    induction files with
    | nil => intro g h; exact absurd h (List.not_mem_nil _)
    | cons a l ih =>
      intro g hmem
      rcases List.mem_cons.mp hmem with h | h
      · subst h
        exact (foldl_graphLe _ (processFile_le t) l _).2 _
          (processFile_emits hF hx hres)
      · exact ih _ h
  intro files hf
  exact key files DependencyGraph.empty hf

-- ===========================================================================
-- Calls-edge provenance (infrastructure for C4)
-- ===========================================================================

theorem resolveEntries_mem {m : SymbolMap} {x cf : String} {se : SymbolEntry}
    (h : resolveEntries m x cf = some se) : EntryInMap m se := by
  unfold resolveEntries at h
  split at h
  case h_2 => exact Option.noConfusion h
  case h_1 es heq =>
    obtain ⟨kv, hkv, hkv2⟩ := Option.map_eq_some'.mp heq
    have hkvmem : kv ∈ m := List.mem_of_find?_eq_some hkv
    have hse : se ∈ es := by
      split at h
      case h_1 e' hfind =>
        cases h
        exact List.mem_of_find?_eq_some hfind
      case h_2 hfind =>
        cases es with
        | nil => exact Option.noConfusion h
        | cons y ys =>
          cases h
          exact List.mem_cons_self _ _
    exact ⟨kv, hkvmem, hkv2 ▸ hse⟩

theorem resolve_function_entryInMap {t : SymbolTable} {x cf : String}
    {se : SymbolEntry} (h : t.resolve_function x cf = some se) :
    EntryInMap t.functions se :=
  @resolveEntries_mem t.functions x cf se h

theorem callsProv_push_nonCalls {t : SymbolTable} {g : DependencyGraph}
    {e : Edge} {ns : List NodeId}
    (hg : CallsProvEntry t g) (hne : e.edge_type ≠ EdgeType.Calls) :
    CallsProvEntry t { nodes := ns, edges := g.edges ++ [e] } := by
  intro e' he' hc
  rcases List.mem_append.mp he' with h | h
  · exact hg e' h hc
  · rw [List.mem_singleton.mp h] at hc
    exact absurd hc hne

theorem callsProv_addCallStep {t : SymbolTable} {c : NodeId} {cf : String}
    {g : DependencyGraph} {call : String}
    (hg : CallsProvEntry t g) : CallsProvEntry t (addCallStep t c cf g call) := by
  unfold addCallStep
  cases hres : t.resolve_function call cf with
  | some E =>
    intro e' he' hc
    rcases List.mem_append.mp he' with h | h
    · exact hg e' h hc
    · rw [List.mem_singleton.mp h]
      exact ⟨E, resolve_function_entryInMap hres, rfl⟩
  | none => exact hg

theorem callsProv_processFunction {t : SymbolTable} {fn : NodeId} {p : String}
    {g : DependencyGraph} {func : FunctionInfo}
    (hg : CallsProvEntry t g) : CallsProvEntry t (processFunction t fn p g func) := by
  have h1 : CallsProvEntry t
      { nodes := insertNode g.nodes (NodeId.Function p func.name)
        edges := g.edges ++ [{ from_ := fn, to_ := NodeId.Function p func.name,
                               edge_type := EdgeType.Defines, properties := [] }] } :=
    callsProv_push_nonCalls hg (by simp)
  exact foldl_invariant (addCallStep t (NodeId.Function p func.name) p)
    (CallsProvEntry t) (fun g' a hg' => callsProv_addCallStep hg')
    func.calls _ h1

theorem callsProv_processInheritance {t : SymbolTable} {cn : NodeId} {p : String}
    {g : DependencyGraph} {i : InheritanceInfo}
    (hg : CallsProvEntry t g) : CallsProvEntry t (processInheritance t cn p g i) := by
  unfold processInheritance
  cases t.resolve_class i.name p with
  | some parent => exact callsProv_push_nonCalls hg (by simp)
  | none => exact callsProv_push_nonCalls hg (by simp)

theorem callsProv_processMethod {t : SymbolTable} {cn : NodeId} {p : String}
    {g : DependencyGraph} {m : FunctionInfo}
    (hg : CallsProvEntry t g) : CallsProvEntry t (processMethod t cn p g m) := by
  have h1 : CallsProvEntry t
      { nodes := insertNode g.nodes (NodeId.Function p m.name)
        edges := g.edges ++ [{ from_ := cn, to_ := NodeId.Function p m.name,
                               edge_type := EdgeType.Contains, properties := [] }] } :=
    callsProv_push_nonCalls hg (by simp)
  exact foldl_invariant (addCallStep t (NodeId.Function p m.name) p)
    (CallsProvEntry t) (fun g' a hg' => callsProv_addCallStep hg')
    m.calls _ h1

theorem callsProv_processClass {t : SymbolTable} {fn : NodeId} {p : String}
    {g : DependencyGraph} {c : ClassInfo}
    (hg : CallsProvEntry t g) : CallsProvEntry t (processClass t fn p g c) := by
  have h1 : CallsProvEntry t
      { nodes := insertNode g.nodes (NodeId.Class p c.name)
        edges := g.edges ++ [{ from_ := fn, to_ := NodeId.Class p c.name,
                               edge_type := EdgeType.Defines, properties := [] }] } :=
    callsProv_push_nonCalls hg (by simp)
  have h2 := foldl_invariant (processInheritance t (NodeId.Class p c.name) p)
    (CallsProvEntry t) (fun g' a hg' => callsProv_processInheritance hg')
    c.inheritances _ h1
  exact foldl_invariant (processMethod t (NodeId.Class p c.name) p)
    (CallsProvEntry t) (fun g' a hg' => callsProv_processMethod hg')
    c.methods _ h2

theorem callsProv_processImport {t : SymbolTable} {fn : NodeId}
    {g : DependencyGraph} {i : String}
    (hg : CallsProvEntry t g) : CallsProvEntry t (processImport fn g i) :=
  callsProv_push_nonCalls hg (by simp)

theorem callsProv_processFile {t : SymbolTable} {g : DependencyGraph}
    {file : ParsedFile}
    (hg : CallsProvEntry t g) : CallsProvEntry t (processFile t g file) := by
  have h0 : CallsProvEntry t
      { g with nodes := insertNode g.nodes (NodeId.File file.path) } := by
    intro e he hc
    exact hg e he hc
  have h1 := foldl_invariant (processFunction t (NodeId.File file.path) file.path)
    (CallsProvEntry t) (fun g' a hg' => callsProv_processFunction hg')
    file.functions _ h0
  have h2 := foldl_invariant (processClass t (NodeId.File file.path) file.path)
    (CallsProvEntry t) (fun g' a hg' => callsProv_processClass hg')
    file.classes _ h1
  exact foldl_invariant (processImport (NodeId.File file.path))
    (CallsProvEntry t) (fun g' a hg' => callsProv_processImport hg')
    file.imports _ h2

theorem callsProv_from_parsed_files (parsed_files : List ParsedFile)
    (t : SymbolTable) :
    CallsProvEntry t (DependencyGraph.from_parsed_files parsed_files t) := by
  unfold DependencyGraph.from_parsed_files
  exact foldl_invariant (processFile t) (CallsProvEntry t)
    (fun g a hg => callsProv_processFile hg)
    parsed_files DependencyGraph.empty
    (fun e he _ => absurd he (List.not_mem_nil _))

-- ===========================================================================
-- Name-keyed invariant of built symbol tables (infrastructure for C4)
-- ===========================================================================

theorem getList_cons_self (k : String) (es : List SymbolEntry) (rest : SymbolMap) :
    SymbolMap.getList ((k, es) :: rest) k = some es := by
  simp [SymbolMap.getList, List.find?_cons]

theorem getList_cons_ne {k' k : String} (es' : List SymbolEntry) (rest : SymbolMap)
    (h : k' ≠ k) :
    SymbolMap.getList ((k', es') :: rest) k = SymbolMap.getList rest k := by
  have hb : (k' == k) = false := beq_eq_false_iff_ne.mpr h
  simp [SymbolMap.getList, List.find?_cons, hb]

theorem push_cons_self (k : String) (es : List SymbolEntry) (rest : SymbolMap)
    (e : SymbolEntry) :
    SymbolMap.push ((k, es) :: rest) k e = (k, es ++ [e]) :: rest := by
  simp [SymbolMap.push]

theorem push_cons_ne {k' k : String} (es' : List SymbolEntry) (rest : SymbolMap)
    (e : SymbolEntry) (h : k' ≠ k) :
    SymbolMap.push ((k', es') :: rest) k e = (k', es') :: SymbolMap.push rest k e := by
  have hb : (k' == k) = false := beq_eq_false_iff_ne.mpr h
  simp [SymbolMap.push, hb]

theorem getList_push_self (m : SymbolMap) (k : String) (e : SymbolEntry) :
    SymbolMap.getList (m.push k e) k
      = some (SymbolMap.entriesFor m k ++ [e]) := by
  induction m with
  | nil => simp [SymbolMap.push, SymbolMap.getList, SymbolMap.entriesFor]
  | cons kv rest ih =>
    obtain ⟨k', es'⟩ := kv
    by_cases h : k' = k
    · subst h
      rw [push_cons_self, getList_cons_self]
      rw [SymbolMap.entriesFor, getList_cons_self]
      simp
    · rw [push_cons_ne _ _ _ h, getList_cons_ne _ _ h]
      have hent : SymbolMap.entriesFor ((k', es') :: rest) k
          = SymbolMap.entriesFor rest k := by
        rw [SymbolMap.entriesFor, SymbolMap.entriesFor, getList_cons_ne _ _ h]
      rw [hent]
      exact ih

theorem getList_push_other (m : SymbolMap) (k n : String) (e : SymbolEntry)
    (hne : n ≠ k) :
    SymbolMap.getList (m.push k e) n = SymbolMap.getList m n := by
  induction m with
  | nil =>
    show SymbolMap.getList [(k, [e])] n = SymbolMap.getList [] n
    rw [getList_cons_ne _ _ (Ne.symm hne)]
  | cons kv rest ih =>
    obtain ⟨k', es'⟩ := kv
    by_cases h : k' = k
    · subst h
      rw [push_cons_self]
      by_cases h2 : k' = n
      · exact absurd h2.symm hne
      · rw [getList_cons_ne _ _ h2, getList_cons_ne _ _ h2]
    · rw [push_cons_ne _ _ _ h]
      by_cases h2 : k' = n
      · subst h2
        rw [getList_cons_self, getList_cons_self]
      · rw [getList_cons_ne _ _ h2, getList_cons_ne _ _ h2]
        exact ih

theorem entriesFor_push_self_ne_nil (m : SymbolMap) (k : String) (e : SymbolEntry) :
    SymbolMap.entriesFor (m.push k e) k ≠ [] := by
  rw [SymbolMap.entriesFor, getList_push_self]
  simp

theorem entriesFor_push_preserve {m : SymbolMap} {n : String} (k : String)
    (e : SymbolEntry) (h : SymbolMap.entriesFor m n ≠ []) :
    SymbolMap.entriesFor (m.push k e) n ≠ [] := by
  by_cases hnk : n = k
  · subst hnk
    exact entriesFor_push_self_ne_nil m n e
  · rw [SymbolMap.entriesFor, getList_push_other m k n e hnk]
    exact h

theorem entryInMap_push {m : SymbolMap} {k : String} {e se : SymbolEntry}
    (h : EntryInMap (m.push k e) se) : EntryInMap m se ∨ se = e := by
  induction m with
  | nil =>
    obtain ⟨kv, hkv, hse⟩ := h
    simp only [SymbolMap.push, List.mem_singleton] at hkv
    subst hkv
    simp only [List.mem_singleton] at hse
    exact Or.inr hse
  | cons kv rest ih =>
    obtain ⟨k', es'⟩ := kv
    by_cases hk : k' = k
    · subst hk
      rw [push_cons_self] at h
      obtain ⟨kv', hkv', hse⟩ := h
      rcases List.mem_cons.mp hkv' with h' | h'
      · subst h'
        rcases List.mem_append.mp hse with h'' | h''
        · exact Or.inl ⟨(k', es'), List.mem_cons_self _ _, h''⟩
        · exact Or.inr (List.mem_singleton.mp h'')
      · exact Or.inl ⟨kv', List.mem_cons_of_mem _ h', hse⟩
    · rw [push_cons_ne _ _ _ hk] at h
      obtain ⟨kv', hkv', hse⟩ := h
      rcases List.mem_cons.mp hkv' with h' | h'
      · subst h'
        exact Or.inl ⟨(k', es'), List.mem_cons_self _ _, hse⟩
      · rcases ih ⟨kv', h', hse⟩ with h'' | h''
        · obtain ⟨kv'', hkv'', hse''⟩ := h''
          exact Or.inl ⟨kv'', List.mem_cons_of_mem _ hkv'', hse''⟩
        · exact Or.inr h''

theorem nameKeyed_push_self {m : SymbolMap} {k : String} {e : SymbolEntry}
    (hm : NameKeyed m) (he : e.name = k) : NameKeyed (m.push k e) := by
  intro se hse
  rcases entryInMap_push hse with h | h
  · exact entriesFor_push_preserve k e (hm se h)
  · rw [h, he]
    exact entriesFor_push_self_ne_nil m k e

theorem nameKeyed_indexMethodStep {m : SymbolMap} (fp cn : String)
    (method : FunctionInfo) (hm : NameKeyed m) :
    NameKeyed (indexMethodStep fp cn m method) := by
  unfold indexMethodStep
  intro se hse
  rcases entryInMap_push hse with h1 | h1
  · rcases entryInMap_push h1 with h2 | h2
    · exact entriesFor_push_preserve _ _
        (entriesFor_push_preserve _ _ (hm se h2))
    · subst h2
      exact entriesFor_push_self_ne_nil _ _ _
  · subst h1
    exact entriesFor_push_self_ne_nil _ _ _

theorem nameKeyed_indexFunctionStep {m : SymbolMap} (p : String)
    (func : FunctionInfo) (hm : NameKeyed m) :
    NameKeyed (indexFunctionStep p m func) :=
  nameKeyed_push_self hm rfl

theorem nameKeyed_indexFile {t : SymbolTable} (file : ParsedFile)
    (hm : NameKeyed t.functions) : NameKeyed (indexFile t file).functions := by
  show NameKeyed
    (file.classes.foldl (fun maps c => indexClass maps file.path c)
      (file.functions.foldl (indexFunctionStep file.path) t.functions,
       t.classes)).1
  have h1 : NameKeyed
      (file.functions.foldl (indexFunctionStep file.path) t.functions) :=
    foldl_invariant (indexFunctionStep file.path) NameKeyed
      (fun m f hm' => nameKeyed_indexFunctionStep file.path f hm')
      file.functions t.functions hm
  exact foldl_invariant (fun maps c => indexClass maps file.path c)
    (fun maps => NameKeyed maps.1)
    (fun maps c hm' =>
      foldl_invariant (indexMethodStep file.path c.name) NameKeyed
        (fun m me hm'' => nameKeyed_indexMethodStep file.path c.name me hm'')
        c.methods maps.1 hm')
    file.classes _ h1

theorem nameKeyed_from_parsed_files (parsed_files : List ParsedFile) :
    NameKeyed (SymbolTable.from_parsed_files parsed_files).functions := by
  unfold SymbolTable.from_parsed_files
  exact foldl_invariant indexFile (fun t => NameKeyed t.functions)
    (fun t f hm => nameKeyed_indexFile f hm)
    parsed_files SymbolTable.empty
    (fun se hse => absurd hse.choose_spec.1 (List.not_mem_nil _))

-- ===========================================================================
-- C4 — Calls-edge resolution
-- ===========================================================================

/-- C4 counterexample: in `zoo.py` the call name `Dog.bark` resolves (methods
are indexed under their qualified name), but the edge the claim predicts —
targeting `Function(zoo.py, "Dog.bark")` — is not in the graph: the code
builds the callee node from the entry's recorded name `bark`, not from the
call name. -/
theorem calls_edge_claim_counterexample :
    (SymbolTable.from_parsed_files [probeZoo]).resolve_function "Dog.bark" "zoo.py"
      = some { file_path := "zoo.py", name := "bark", start_line := 3, end_line := 4 }
    ∧ { from_ := NodeId.Function "zoo.py" "use_dog",
        to_ := NodeId.Function "zoo.py" "Dog.bark",
        edge_type := EdgeType.Calls, properties := [] }
      ∉ (DependencyGraph.from_parsed_files [probeZoo]
          (SymbolTable.from_parsed_files [probeZoo])).edges
    ∧ { from_ := NodeId.Function "zoo.py" "use_dog",
        to_ := NodeId.Function "zoo.py" "bark",
        edge_type := EdgeType.Calls, properties := [] }
      ∈ (DependencyGraph.from_parsed_files [probeZoo]
          (SymbolTable.from_parsed_files [probeZoo])).edges := by
  refine ⟨rfl, by decide, by decide⟩

/-- C4 amended: for a call name `x` recorded in function (or method) `F` of
parsed file `f`, if the symbol table built from the files resolves `x` in
context `f.path` to entry `E`, then the built graph contains a `Calls` edge
from `Function(f.path, F.name)` to `Function(E.file, E.name)` — the entry's
recorded name, which differs from `x` for qualified method call names; and
if `x` does not resolve, no `Calls` edge targeting a node named `x` exists. -/
theorem calls_edge_resolution (parsed_files : List ParsedFile) (f : ParsedFile)
    (F : FunctionInfo) (x : String)
    (hf : f ∈ parsed_files)
    (hF : F ∈ f.functions ∨ ∃ c ∈ f.classes, F ∈ c.methods)
    (hx : x ∈ F.calls) :
    (∀ E, (SymbolTable.from_parsed_files parsed_files).resolve_function x f.path
        = some E →
      { from_ := NodeId.Function f.path F.name,
        to_ := NodeId.Function E.file_path E.name,
        edge_type := EdgeType.Calls, properties := [] }
        ∈ (DependencyGraph.from_parsed_files parsed_files
            (SymbolTable.from_parsed_files parsed_files)).edges)
    ∧ ((SymbolTable.from_parsed_files parsed_files).resolve_function x f.path
        = none →
      ∀ e ∈ (DependencyGraph.from_parsed_files parsed_files
          (SymbolTable.from_parsed_files parsed_files)).edges,
        e.edge_type = EdgeType.Calls →
        ∀ q, e.to_ ≠ NodeId.Function q x) := by
  constructor
  · intro E hres
    exact from_parsed_files_emits hF hx hres parsed_files hf
  · intro hnone e he hc q heq
    obtain ⟨se, hse, hto⟩ :=
      callsProv_from_parsed_files parsed_files
        (SymbolTable.from_parsed_files parsed_files) e he hc
    rw [heq] at hto
    have hname : se.name = x := by
      have := hto
      simp only [NodeId.Function.injEq] at this
      exact this.2.symm
    have hnil : SymbolMap.entriesFor
        (SymbolTable.from_parsed_files parsed_files).functions x = [] :=
      (resolveEntries_none_iff
        (SymbolTable.from_parsed_files parsed_files).functions x f.path).mp hnone
    have hne := nameKeyed_from_parsed_files parsed_files se hse
    rw [hname] at hne
    exact hne hnil

/-- Witness for the amended C4 theorem: in the probe repository, `helper`
resolves cross-file and the expected `Calls` edge is present. -/
theorem calls_edge_resolution_witness :
    { from_ := NodeId.Function "caller.rs" "main",
      to_ := NodeId.Function "callee.rs" "helper",
      edge_type := EdgeType.Calls, properties := [] }
      ∈ (DependencyGraph.from_parsed_files [probeCaller, probeCallee]
          (SymbolTable.from_parsed_files [probeCaller, probeCallee])).edges :=
  (calls_edge_resolution [probeCaller, probeCallee] probeCaller probeMain "helper"
      (by decide) (Or.inl (by decide)) (by decide)).1
    { file_path := "callee.rs", name := "helper", start_line := 1, end_line := 2 }
    (by decide)
